import Mathlib

/-!
# Verification of the TSP visualizer heuristic engine

Shallow embedding of the tour-construction engine of
`src/components/tsp-visualizer.tsx` (TypeScript component; the JS variant in
`src/unnamed/part_000` is modelled separately where it differs).

Modelling conventions:

* A `Point` carries rational coordinates.  The code's `distance` uses
  `Math.sqrt`, so every algorithm is embedded parametrically over an abstract
  distance function `d : Point → Point → ℚ`; all structural claims are proved
  for every `d`, and the Euclidean distance is one instance.  Concrete
  counterexamples use collinear points with equal `y`, where the Euclidean
  distance is exactly `|Δx|`, a rational.
* JavaScript `!==` / `includes` / `indexOf` compare object references; under
  the PointSet invariant (all points pairwise distinct by value) reference
  equality coincides with value equality, which is what the embedding uses.
* The cancellation flag `algorithmRef.current.stopped` is modelled as a
  schedule `stop : Nat → Bool` giving the value observed at the k-th check of
  the while-loop guard (the post-loop `if (!stopped)` re-reads the flag with
  no intervening await, hence sees the same value).
* Loops are written with fuel equal to the length of the remaining set; a run
  that the real code would crash (access of `undefined`) or spin forever in
  is modelled as `none`.
* Each `setCurrentPath(...)` emission inside a loop is recorded in a `steps`
  trace; the open/closed shape of each strategy's emission is mirrored.
* The `points` array the strategies read is threaded into the result as
  `pointsAfter`, recording any mutation the source performs on it (the
  TypeScript strategies only read `points`; the JS variant's
  `furthestInsertion` calls `points.shift()`).
-/

namespace TSP

/-- A 2-D point (`interface Point { x: number; y: number }`). -/
structure Point where
  x : ℚ
  y : ℚ
deriving DecidableEq, Repr

/-- Fallback value used where the code would read an out-of-range index that
is unreachable along the modelled control flow. -/
def origin : Point := ⟨0, 0⟩

/-- An abstract distance function standing for the code's Euclidean
`distance(a, b) = Math.sqrt((a.x-b.x)**2 + (a.y-b.y)**2)`. -/
abbrev Dist := Point → Point → ℚ

/-- `pathCost(path)`: sum of `distance` over consecutive pairs. -/
def pathCost (d : Dist) : List Point → ℚ
  | a :: b :: rest => d a b + pathCost d (b :: rest)
  | _ => 0

/-- `path.splice(i, 0, p)` / `[...path.slice(0, i), p, ...path.slice(i)]`:
insert `p` at position `i` (clamped to the end, as in JavaScript). -/
def insertAt : Nat → Point → List Point → List Point
  | 0, p, l => p :: l
  | _ + 1, p, [] => [p]
  | n + 1, p, a :: l => a :: insertAt n p l

/-- The incremental insertion-cost expression
`distance(path[i], p) + distance(p, path[(i+1) % path.length]) -
 distance(path[i], path[(i+1) % path.length])`
used by nearestInsertion, furthestInsertion and convexHull. -/
def insertionCost (d : Dist) (path : List Point) (p : Point) (i : Nat) : ℚ :=
  d (path.getD i origin) p + d p (path.getD ((i + 1) % path.length) origin)
    - d (path.getD i origin) (path.getD ((i + 1) % path.length) origin)

/-- One update of the `best = Infinity; if score x < best` scan pattern;
`none` stands for the initial `null` / `Infinity` pair. -/
def scanMinStep {α : Type} (score : α → ℚ) (acc : Option (ℚ × α)) (x : α) :
    Option (ℚ × α) :=
  match acc with
  | none => some (score x, x)
  | some (b, _) => if score x < b then some (score x, x) else acc

/-- The `best = Infinity; for x: if score x < best then update` scan:
returns the first candidate attaining the minimum score (`none` when the
candidate list is empty, i.e. when the JavaScript variables keep their
initial `null` / `Infinity` values). -/
def scanMinBy {α : Type} (score : α → ℚ) (xs : List α) : Option (ℚ × α) :=
  xs.foldl (scanMinStep score) none

/-- One update of furthestInsertion's selection scan
(`if (minDistanceToPath > selectedDistance)`). -/
def scanMaxStep {α : Type} (score : α → ℚ) (acc : ℚ × Option α) (x : α) :
    ℚ × Option α :=
  if score x > acc.1 then (score x, some x) else acc

/-- The `selectedDistance = 0; selectedPoint = null; if score x > selectedDistance`
scan of furthestInsertion's selection phase (note the initial best score 0). -/
def scanMaxPos {α : Type} (score : α → ℚ) (xs : List α) : ℚ × Option α :=
  xs.foldl (scanMaxStep score) (0, none)

/-- furthestInsertion's inner loop: minimum distance from a free point to any
path point (`minDistanceToPath`).  The `[]` case is unreachable: the tour
always holds at least the start point. -/
def minDistToPath (d : Dist) (path : List Point) (p : Point) : ℚ :=
  match path with
  | [] => 0
  | q :: rest => rest.foldl (fun m t => min m (d p t)) (d p q)

/-- Terminal state of one strategy run.  `finalTour` is the strategy's local
`path` after the post-loop block (closed when the run completed, still open
when it was stopped); `remaining` the unplaced points at exit; `steps` the
`setCurrentPath` emissions of the loop; `pointsAfter` the `points` array
after the run. -/
structure RunResult where
  finalTour : List Point
  remaining : List Point
  stopped : Bool
  steps : List (List Point)
  pointsAfter : List Point
deriving DecidableEq, Repr

/-- Shared shape of the five `while (remaining.length > 0 && !stopped)` loops.
`step` performs one loop body (placing one point), `emit` shapes the
`setCurrentPath` snapshot, `stop k` is the flag value observed at the k-th
guard check.  `none` models a body the real code would crash or spin in. -/
def runLoop (step : List Point → List Point → Option (List Point × List Point))
    (emit : List Point → List Point) (stop : Nat → Bool) :
    Nat → Nat → List Point → List Point → List (List Point) →
    Option (List Point × List Point × Nat × List (List Point))
  | 0, k, path, remaining, steps =>
    match remaining with
    | [] => some (path, [], k, steps)
    | _ :: _ => if stop k then some (path, remaining, k, steps) else none
  | fuel + 1, k, path, remaining, steps =>
    match remaining with
    | [] => some (path, [], k, steps)
    | _ :: _ =>
      if stop k then some (path, remaining, k, steps)
      else
        match step path remaining with
        | none => none
        | some (path2, rem2) =>
          runLoop step emit stop fuel (k + 1) path2 rem2 (steps ++ [emit path2])

/-- nearestNeighbor / furthestInsertion emit `[...path]` (open). -/
def emitOpen : List Point → List Point := fun pa => pa

/-- The insertion strategies emit `[...path, path[0]]` (display-closed). -/
def emitClosed : List Point → List Point := fun pa => pa ++ [pa.headD origin]

/-- One nearestNeighbor loop body: stable-sort the remaining points by
distance to the tour's last point, `shift()` the nearest one and append it. -/
def nnStep (d : Dist) (path remaining : List Point) :
    Option (List Point × List Point) :=
  match remaining.mergeSort
      (fun a b => decide (d (path.getLastD origin) a ≤ d (path.getLastD origin) b)) with
  | [] => none
  | next :: rest => some (path ++ [next], rest)

/-- `nearestNeighbor` (tsx lines 194-234).  `s` is the value of
`Math.floor(Math.random() * points.length)`. -/
def nearestNeighbor (d : Dist) (stop : Nat → Bool) (s : Nat)
    (points : List Point) : Option RunResult :=
  match points.get? s with
  | none => none
  | some startPoint =>
    let remainingPoints := points.filter (fun p => decide (p ≠ startPoint))
    match runLoop (nnStep d) emitOpen stop remainingPoints.length 0
        [startPoint] remainingPoints [] with
    | none => none
    | some (path, rem, k, steps) =>
      if stop k then some ⟨path, rem, true, steps, points⟩
      else some ⟨path ++ [startPoint], rem, false, steps, points⟩

/-- arbitraryInsertion's position scan: open `pathCost` of every tentative
sequence `[...path.slice(0, i), p, ...path.slice(i)]` for `i = 0 .. path.length`. -/
def aiScan (d : Dist) (path : List Point) (p : Point) : Option (ℚ × Nat) :=
  scanMinBy (fun i => pathCost d (insertAt i p path)) (List.range (path.length + 1))

/-- arbitraryInsertion's insertion of one point at the best position found
(the `none` branch keeps the initial `bestPosition = 0`; it is unreachable
because the scanned range is nonempty). -/
def aiStep (d : Dist) (path : List Point) (p : Point) : List Point :=
  match aiScan d path p with
  | none => insertAt 0 p path
  | some (_, i) => insertAt i p path

/-- One arbitraryInsertion loop body: `shift()` the first remaining point and
insert it at the best position. -/
def aiStepF (d : Dist) (path remaining : List Point) :
    Option (List Point × List Point) :=
  match remaining with
  | [] => none
  | p :: rest => some (aiStep d path p, rest)

/-- `arbitraryInsertion` (tsx lines 236-283).  The `find` miss at size 1 makes
the code carry `undefined` into `pathCost`, which faults: modelled `none`. -/
def arbitraryInsertion (d : Dist) (stop : Nat → Bool) (s : Nat)
    (points : List Point) : Option RunResult :=
  match points.get? s with
  | none => none
  | some startPoint =>
    match points.find? (fun p => decide (p ≠ startPoint)) with
    | none => none
    | some second =>
      let path0 := [startPoint, second]
      let remainingPoints := points.filter (fun p => decide (p ∉ path0))
      match runLoop (aiStepF d) emitClosed stop remainingPoints.length 0
          path0 remainingPoints [] with
      | none => none
      | some (path, rem, k, steps) =>
        if stop k then some ⟨path, rem, true, steps, points⟩
        else some ⟨path ++ [path.headD origin], rem, false, steps, points⟩

/-- The (remaining point, tour edge) candidate pairs of the nested
`for (const point of remainingPoints) for (let i = 0; i < path.length; i++)`
scan, in scan order. -/
def insCandidates (path remaining : List Point) : List (Point × Nat) :=
  remaining.foldr (fun p acc => ((List.range path.length).map fun i => (p, i)) ++ acc) []

/-- nearestInsertion / convexHull selection: minimize `insertionCost` over all
candidate pairs, first minimum wins. -/
def niSelect (d : Dist) (path remaining : List Point) : Option (ℚ × (Point × Nat)) :=
  scanMinBy (fun pi => insertionCost d path pi.1 pi.2) (insCandidates path remaining)

/-- One nearestInsertion loop body; the selected point is removed with
`splice(indexOf(p), 1)` (first occurrence). -/
def niStep (d : Dist) (path remaining : List Point) :
    Option (List Point × List Point) :=
  match niSelect d path remaining with
  | none => none
  | some (_, (p, i)) => some (insertAt (i + 1) p path, remaining.erase p)

/-- `nearestInsertion` (tsx lines 285-336). -/
def nearestInsertion (d : Dist) (stop : Nat → Bool) (s : Nat)
    (points : List Point) : Option RunResult :=
  match points.get? s with
  | none => none
  | some startPoint =>
    match points.find? (fun p => decide (p ≠ startPoint)) with
    | none => none
    | some second =>
      let path0 := [startPoint, second]
      let remainingPoints := points.filter (fun p => decide (p ∉ path0))
      match runLoop (niStep d) emitClosed stop remainingPoints.length 0
          path0 remainingPoints [] with
      | none => none
      | some (path, rem, k, steps) =>
        if stop k then some ⟨path, rem, true, steps, points⟩
        else some ⟨path ++ [path.headD origin], rem, false, steps, points⟩

/-- furthestInsertion's selection phase over the remaining points. -/
def fiSelect (d : Dist) (path remaining : List Point) : Option Point :=
  (scanMaxPos (fun p => minDistToPath d path p) remaining).2

/-- furthestInsertion's insertion scan over the tour edges `i = 0 .. len-1`. -/
def fiInsertScan (d : Dist) (path : List Point) (p : Point) : Option (ℚ × Nat) :=
  scanMinBy (fun i => insertionCost d path p i) (List.range path.length)

/-- One furthestInsertion loop body: select the most isolated remaining point
and insert it after the best edge; the point is removed with
`filter(q => q !== p)`.  A failed selection (`selectedPoint` still `null`)
makes the real loop spin forever: modelled `none`. -/
def fiStep (d : Dist) (path remaining : List Point) :
    Option (List Point × List Point) :=
  match fiSelect d path remaining with
  | none => none
  | some p =>
    match fiInsertScan d path p with
    | none => none
    | some (_, i) =>
      some (insertAt (i + 1) p path, remaining.filter (fun q => decide (q ≠ p)))

/-- `furthestInsertion` (tsx lines 338-419): deterministic start at
`points[0]`, descending stable sort of the rest by distance to it, `shift()`
of the furthest point, one emitted step, then the main loop.  On empty input
the closing `pathCost` would fault: modelled `none`. -/
def furthestInsertion (d : Dist) (stop : Nat → Bool)
    (points : List Point) : Option RunResult :=
  match points with
  | [] => none
  | p0 :: rest =>
    match rest.mergeSort (fun a b => decide (d p0 b ≤ d p0 a)) with
    | [] =>
      match runLoop (fiStep d) emitOpen stop 0 0 [p0] [] [[p0]] with
      | none => none
      | some (path, rem, k, steps) =>
        if stop k then some ⟨path, rem, true, steps, points⟩
        else some ⟨path ++ [path.headD origin], rem, false, steps, points⟩
    | f :: remaining1 =>
      match runLoop (fiStep d) emitOpen stop remaining1.length 0
          [p0, f] remaining1 [[p0, f]] with
      | none => none
      | some (path, rem, k, steps) =>
        if stop k then some ⟨path, rem, true, steps, points⟩
        else some ⟨path ++ [path.headD origin], rem, false, steps, points⟩

/-- The cross product helper of convexHull. -/
def cross (o a b : Point) : ℚ :=
  (a.x - o.x) * (b.y - o.y) - (a.y - o.y) * (b.x - o.x)

/-- The lexicographic comparator `(a, b) => a.x - b.x || a.y - b.y`. -/
def lexLe (a b : Point) : Bool :=
  decide (a.x < b.x ∨ (a.x = b.x ∧ a.y ≤ b.y))

/-- The `while (hull.length >= 2 && cross(...) <= 0) hull.pop()` rejection;
the chain is stored newest-first. -/
def popChain (p : Point) : List Point → List Point
  | b :: a :: rest => if cross a b p ≤ 0 then popChain p (a :: rest) else b :: a :: rest
  | ch => ch

/-- One monotone half-chain (newest-first storage). -/
def buildChain (l : List Point) : List Point :=
  l.foldl (fun ch p => p :: popChain p ch) []

/-- The convex hull `[...lowerHull.slice(0, -1), ...upperHull.slice(0, -1)]`. -/
def hullOf (points : List Point) : List Point :=
  let sortedPoints := points.mergeSort lexLe
  (buildChain sortedPoints).reverse.dropLast
    ++ (buildChain sortedPoints.reverse).reverse.dropLast

/-- One convexHull insertion-loop body: same selection as nearestInsertion,
removal with `filter(q => q !== p)`. -/
def chStep (d : Dist) (path remaining : List Point) :
    Option (List Point × List Point) :=
  match niSelect d path remaining with
  | none => none
  | some (_, (p, i)) =>
    some (insertAt (i + 1) p path, remaining.filter (fun q => decide (q ≠ p)))

/-- `convexHull` (tsx lines 423-510): hull as initial tour (one emitted
closed step), then nearest insertion of the remaining points. -/
def convexHull (d : Dist) (stop : Nat → Bool)
    (points : List Point) : Option RunResult :=
  let hull := hullOf points
  let remainingPoints := points.filter (fun p => decide (p ∉ hull))
  match runLoop (chStep d) emitClosed stop remainingPoints.length 0
      hull remainingPoints [emitClosed hull] with
  | none => none
  | some (path, rem, k, steps) =>
    if stop k then some ⟨path, rem, true, steps, points⟩
    else some ⟨path ++ [path.headD origin], rem, false, steps, points⟩

/-- The JS variant's `furthestInsertion` (src/unnamed/part_000 lines 314-386):
it begins with `let path = [points.shift()]`, MUTATING the shared `points`
array (its `pointsAfter` is the tail), and has no guard on the initial
`push` (size 1 faults in the emitted `pathCost`: `none`). -/
def furthestInsertionJS (d : Dist) (stop : Nat → Bool)
    (points : List Point) : Option RunResult :=
  match points with
  | [] => none
  | p0 :: rest =>
    match rest.mergeSort (fun a b => decide (d p0 b ≤ d p0 a)) with
    | [] => none
    | f :: remaining1 =>
      match runLoop (fiStep d) emitOpen stop remaining1.length 0
          [p0, f] remaining1 [[p0, f]] with
      | none => none
      | some (path, rem, k, steps) =>
        if stop k then some ⟨path, rem, true, steps, rest⟩
        else some ⟨path ++ [path.headD origin], rem, false, steps, rest⟩

/-- Outcome of `startAlgorithm`'s switch: either a strategy run was started,
or the default branch only logged `"Algorithm not implemented"` to the
console and reset `isRunning` — no error value reaches the caller. -/
inductive StartOutcome where
  | run (result : Option RunResult)
  | logOnly (msg : String)
deriving DecidableEq, Repr

/-- The `switch (algorithm)` dispatch of `startAlgorithm` (tsx lines 513-538).
`seed` stands for the `Math.random()` start-point draw of the strategies
that make one; furthestInsertion and convexHull never read it. -/
def startAlgorithm (d : Dist) (stop : Nat → Bool) (seed : Nat)
    (points : List Point) (algorithm : String) : StartOutcome :=
  match algorithm with
  | "nearest-neighbor" => .run (nearestNeighbor d stop seed points)
  | "arbitrary-insertion" => .run (arbitraryInsertion d stop seed points)
  | "nearest-insertion" => .run (nearestInsertion d stop seed points)
  | "furthest-insertion" => .run (furthestInsertion d stop points)
  | "convex-hull" => .run (convexHull d stop points)
  | _ => .logOnly "Algorithm not implemented"

/-- The component's `factorial` (tsx lines 65-70). -/
def factorial : Nat → Nat
  | 0 => 1
  | 1 => 1
  | n + 2 => (n + 2) * factorial (n + 1)

/-- The `possiblePaths` metric set by `randomizeVerticesCallback`
(tsx line 93): `factorial(vertices)` for `vertices` generated points. -/
def possiblePaths (vertices : Nat) : Nat := factorial vertices

/-- Modelled from the spec, for comparison with `aiScan` (claim C4): the
spec's arbitrary-insertion position scan minimizes the full `tourCost` of the
tentative CLOSED sequence, "first point repeated at the end". -/
def aiScanSpec (d : Dist) (path : List Point) (p : Point) : Option (ℚ × Nat) :=
  scanMinBy
    (fun i => pathCost d (insertAt i p path ++ [(insertAt i p path).headD origin]))
    (List.range (path.length + 1))

/-- Modelled from the spec: arbitrary insertion of one point at the position
minimizing the closed tentative tour cost. -/
def aiStepSpec (d : Dist) (path : List Point) (p : Point) : List Point :=
  match aiScanSpec d path p with
  | none => insertAt 0 p path
  | some (_, i) => insertAt i p path

/-- Modelled from the spec: the arbitrary-insertion run with the spec's
closed-cost position rule in place of the code's open-cost rule. -/
def arbitraryInsertionSpec (d : Dist) (stop : Nat → Bool) (s : Nat)
    (points : List Point) : Option RunResult :=
  match points.get? s with
  | none => none
  | some startPoint =>
    match points.find? (fun p => decide (p ≠ startPoint)) with
    | none => none
    | some second =>
      let path0 := [startPoint, second]
      let remainingPoints := points.filter (fun p => decide (p ∉ path0))
      match runLoop
          (fun path remaining =>
            match remaining with
            | [] => none
            | p :: rest => some (aiStepSpec d path p, rest))
          emitClosed stop remainingPoints.length 0 path0 remainingPoints [] with
      | none => none
      | some (path, rem, k, steps) =>
        if stop k then some ⟨path, rem, true, steps, points⟩
        else some ⟨path ++ [path.headD origin], rem, false, steps, points⟩

/-- A distance instance for concrete counterexamples: for the points used
(all with equal `y`) it agrees exactly with the code's Euclidean distance,
since `sqrt((a.x-b.x)^2 + 0) = |a.x - b.x|`. -/
def distX (a b : Point) : ℚ := |a.x - b.x|

/-- A positive-definite distance instance for witnesses (taxicab). -/
def taxi (a b : Point) : ℚ := |a.x - b.x| + |a.y - b.y|

/-- The stop schedule of a run that is never stopped. -/
def never (_ : Nat) : Bool := false

/-- The stop schedule of a run whose flag is set before it starts. -/
def always (_ : Nat) : Bool := true

/-! ## Characterization of the scan primitives -/

/-- Recursive companion of the min-scan once a first candidate is held. -/
def scanMinGo {α : Type} (score : α → ℚ) : ℚ → α → List α → ℚ × α
  | b, best, [] => (b, best)
  | b, best, x :: xs =>
    if score x < b then scanMinGo score (score x) x xs else scanMinGo score b best xs

theorem scanMinGo_cons {α : Type} (score : α → ℚ) (b : ℚ) (y x : α) (xs : List α) :
    scanMinGo score b y (x :: xs)
      = if score x < b then scanMinGo score (score x) x xs
        else scanMinGo score b y xs := rfl

theorem foldl_scanMinStep_some {α : Type} (score : α → ℚ) :
    ∀ (xs : List α) (b : ℚ) (y : α),
      xs.foldl (scanMinStep score) (some (b, y)) = some (scanMinGo score b y xs)
  | [], _, _ => rfl
  | x :: xs, b, y => by
    by_cases h : score x < b
    · rw [List.foldl_cons,
        show scanMinStep score (some (b, y)) x = some (score x, x) from by
          simp [scanMinStep, h],
        foldl_scanMinStep_some score xs, scanMinGo_cons, if_pos h]
    · rw [List.foldl_cons,
        show scanMinStep score (some (b, y)) x = some (b, y) from by
          simp [scanMinStep, h],
        foldl_scanMinStep_some score xs, scanMinGo_cons, if_neg h]

theorem scanMinGo_spec {α : Type} (score : α → ℚ) :
    ∀ (xs : List α) (b : ℚ) (y : α),
      (scanMinGo score b y xs).1 ≤ b ∧
      (∀ z ∈ xs, (scanMinGo score b y xs).1 ≤ score z) ∧
      (((scanMinGo score b y xs).2 = y ∧ (scanMinGo score b y xs).1 = b) ∨
        ∃ pre post, xs = pre ++ (scanMinGo score b y xs).2 :: post ∧
          score (scanMinGo score b y xs).2 = (scanMinGo score b y xs).1 ∧
          (scanMinGo score b y xs).1 < b ∧
          ∀ z ∈ pre, (scanMinGo score b y xs).1 < score z)
  | [], b, y => by
    refine ⟨le_refl _, by simp, Or.inl ⟨rfl, rfl⟩⟩
  | x :: xs, b, y => by
    by_cases h : score x < b
    · have ih := scanMinGo_spec score xs (score x) x
      rw [scanMinGo_cons, if_pos h]
      refine ⟨ih.1.trans h.le, ?_, ?_⟩
      · intro z hz
        rcases List.mem_cons.mp hz with rfl | hz
        · exact ih.1
        · exact ih.2.1 z hz
      · rcases ih.2.2 with ⟨h2, h1⟩ | ⟨pre, post, hsplit, hsc, hlt, hpre⟩
        · refine Or.inr ⟨[], xs, by simp [h2], by rw [h2, h1], by rw [h1]; exact h, by simp⟩
        · refine Or.inr ⟨x :: pre, post, by rw [List.cons_append, ← hsplit], hsc,
            hlt.trans h, ?_⟩
          intro z hz
          rcases List.mem_cons.mp hz with rfl | hz
          · exact hlt
          · exact hpre z hz
    · have ih := scanMinGo_spec score xs b y
      rw [scanMinGo_cons, if_neg h]
      refine ⟨ih.1, ?_, ?_⟩
      · intro z hz
        rcases List.mem_cons.mp hz with rfl | hz
        · exact ih.1.trans (not_lt.mp h)
        · exact ih.2.1 z hz
      · rcases ih.2.2 with hsame | ⟨pre, post, hsplit, hsc, hlt, hpre⟩
        · exact Or.inl hsame
        · refine Or.inr ⟨x :: pre, post, by rw [List.cons_append, ← hsplit], hsc, hlt, ?_⟩
          intro z hz
          rcases List.mem_cons.mp hz with rfl | hz
          · exact hlt.trans_le (not_lt.mp h)
          · exact hpre z hz

theorem scanMinBy_cons {α : Type} (score : α → ℚ) (x : α) (xs : List α) :
    scanMinBy score (x :: xs) = some (scanMinGo score (score x) x xs) := by
  simp [scanMinBy, scanMinStep, foldl_scanMinStep_some score xs]

theorem scanMinBy_isSome {α : Type} (score : α → ℚ) (xs : List α) (h : xs ≠ []) :
    ∃ c w, scanMinBy score xs = some (c, w) := by
  cases xs with
  | nil => exact absurd rfl h
  | cons x rest => exact ⟨_, _, scanMinBy_cons score x rest⟩

/-- Full characterization of the min-scan: the winner is a member attaining
the minimum score, and every candidate scanned before it scores strictly
worse (the first-minimum tie-break). -/
theorem scanMinBy_some_spec {α : Type} (score : α → ℚ) (xs : List α) (c : ℚ) (w : α)
    (h : scanMinBy score xs = some (c, w)) :
    w ∈ xs ∧ score w = c ∧ (∀ z ∈ xs, c ≤ score z) ∧
      ∃ pre post, xs = pre ++ w :: post ∧ ∀ z ∈ pre, c < score z := by
  cases xs with
  | nil => simp [scanMinBy] at h
  | cons x rest =>
    rw [scanMinBy_cons] at h
    have hgo : scanMinGo score (score x) x rest = (c, w) := by injection h
    have hc : (scanMinGo score (score x) x rest).1 = c := by rw [hgo]
    have hw : (scanMinGo score (score x) x rest).2 = w := by rw [hgo]
    have hspec := scanMinGo_spec score rest (score x) x
    rw [hc, hw] at hspec
    rcases hspec with ⟨hle, hmin, hdisj⟩
    rcases hdisj with ⟨rfl, rfl⟩ | ⟨pre, post, hsplit, hsc, hlt, hpre⟩
    · refine ⟨List.mem_cons_self _ _, rfl, ?_, [], rest, rfl, by simp⟩
      intro z hz
      rcases List.mem_cons.mp hz with rfl | hz
      · exact le_refl _
      · exact hmin z hz
    · refine ⟨List.mem_cons.mpr
        (Or.inr (hsplit ▸ List.mem_append_right pre (List.mem_cons_self w post))),
        hsc, ?_, x :: pre, post, by simp [hsplit], ?_⟩
      · intro z hz
        rcases List.mem_cons.mp hz with rfl | hz
        · exact hlt.le
        · exact hmin z hz
      · intro z hz
        rcases List.mem_cons.mp hz with rfl | hz
        · exact hlt
        · exact hpre z hz

theorem foldl_scanMaxStep_spec {α : Type} (score : α → ℚ) :
    ∀ (xs : List α) (b : ℚ) (o : Option α),
      b ≤ (xs.foldl (scanMaxStep score) (b, o)).1 ∧
      (∀ z ∈ xs, score z ≤ (xs.foldl (scanMaxStep score) (b, o)).1) ∧
      (xs.foldl (scanMaxStep score) (b, o) = (b, o) ∨
        ∃ w ∈ xs, xs.foldl (scanMaxStep score) (b, o) = (score w, some w))
  | [], b, o => ⟨le_refl _, by simp, Or.inl rfl⟩
  | x :: xs, b, o => by
    by_cases h : score x > b
    · have ih := foldl_scanMaxStep_spec score xs (score x) (some x)
      rw [show (x :: xs).foldl (scanMaxStep score) (b, o)
          = xs.foldl (scanMaxStep score) (score x, some x) from by
        simp [scanMaxStep, h]]
      refine ⟨h.le.trans ih.1, ?_, ?_⟩
      · intro z hz
        rcases List.mem_cons.mp hz with rfl | hz
        · exact ih.1
        · exact ih.2.1 z hz
      · rcases ih.2.2 with heq | ⟨w, hw, heq⟩
        · exact Or.inr ⟨x, List.mem_cons_self x xs, heq⟩
        · exact Or.inr ⟨w, List.mem_cons.mpr (Or.inr hw), heq⟩
    · have ih := foldl_scanMaxStep_spec score xs b o
      rw [show (x :: xs).foldl (scanMaxStep score) (b, o)
          = xs.foldl (scanMaxStep score) (b, o) from by simp [scanMaxStep, h]]
      refine ⟨ih.1, ?_, ?_⟩
      · intro z hz
        rcases List.mem_cons.mp hz with rfl | hz
        · exact (not_lt.mp h).trans ih.1
        · exact ih.2.1 z hz
      · rcases ih.2.2 with heq | ⟨w, hw, heq⟩
        · exact Or.inl heq
        · exact Or.inr ⟨w, List.mem_cons.mpr (Or.inr hw), heq⟩

/-- Characterization of furthestInsertion's selection scan: when every
candidate scores positively, it returns a member attaining the maximum. -/
theorem scanMaxPos_spec {α : Type} (score : α → ℚ) (xs : List α) (hne : xs ≠ [])
    (hpos : ∀ z ∈ xs, 0 < score z) :
    ∃ w, (scanMaxPos score xs).2 = some w ∧ w ∈ xs ∧ ∀ z ∈ xs, score z ≤ score w := by
  cases xs with
  | nil => exact absurd rfl hne
  | cons x rest =>
    have hx : scanMaxStep score (0, none) x = (score x, some x) := by
      simp [scanMaxStep, hpos x (List.mem_cons_self x rest)]
    have hfold : scanMaxPos score (x :: rest)
        = rest.foldl (scanMaxStep score) (score x, some x) := by
      simp only [scanMaxPos, List.foldl_cons, hx]
    have ih := foldl_scanMaxStep_spec score rest (score x) (some x)
    rcases ih.2.2 with heq | ⟨w, hw, heq⟩
    · refine ⟨x, by rw [hfold, heq], List.mem_cons_self x rest, ?_⟩
      intro z hz
      rcases List.mem_cons.mp hz with rfl | hz
      · exact le_refl _
      · have := ih.2.1 z hz
        rw [heq] at this
        exact this
    · refine ⟨w, by rw [hfold, heq], List.mem_cons.mpr (Or.inr hw), ?_⟩
      intro z hz
      have hb := ih.1
      have hall := ih.2.1
      rw [heq] at hb hall
      rcases List.mem_cons.mp hz with rfl | hz
      · exact hb
      · exact hall z hz

/-- The minimum over a nonempty tour of positive distances is positive. -/
theorem minDistToPath_pos (d : Dist) (path : List Point) (p : Point) (hne : path ≠ [])
    (hpos : ∀ t ∈ path, 0 < d p t) : 0 < minDistToPath d path p := by
  cases path with
  | nil => exact absurd rfl hne
  | cons q rest =>
    have key : ∀ (l : List Point) (m : ℚ), 0 < m → (∀ t ∈ l, 0 < d p t) →
        0 < l.foldl (fun m t => min m (d p t)) m := by
      intro l
      induction l with
      | nil => intro m hm _; exact hm
      | cons t l ih =>
        intro m hm hl
        simp only [List.foldl_cons]
        exact ih _ (lt_min hm (hl t (List.mem_cons_self t l)))
          (fun u hu => hl u (List.mem_cons.mpr (Or.inr hu)))
    exact key rest (d p q) (hpos q (List.mem_cons_self q rest))
      (fun u hu => hpos u (List.mem_cons.mpr (Or.inr hu)))

/-! ## Basic facts about `insertAt` and the candidate lists -/

theorem insertAt_perm (p : Point) :
    ∀ (n : Nat) (l : List Point), (insertAt n p l).Perm (p :: l)
  | 0, l => by simp [insertAt]
  | _ + 1, [] => by simp [insertAt]
  | n + 1, a :: l => by
    simpa [insertAt] using ((insertAt_perm p n l).cons a).trans (List.Perm.swap p a l)

theorem length_insertAt (n : Nat) (p : Point) (l : List Point) :
    (insertAt n p l).length = l.length + 1 := by
  simpa using (insertAt_perm p n l).length_eq

theorem insCandidates_cons (path : List Point) (q : Point) (rest : List Point) :
    insCandidates path (q :: rest)
      = ((List.range path.length).map fun i => (q, i)) ++ insCandidates path rest := rfl

theorem mem_insCandidates (path remaining : List Point) (p : Point) (i : Nat) :
    (p, i) ∈ insCandidates path remaining ↔ p ∈ remaining ∧ i < path.length := by
  induction remaining with
  | nil => simp [insCandidates]
  | cons q rest ih =>
    rw [insCandidates_cons]
    constructor
    · intro hmem
      rcases List.mem_append.mp hmem with hl | hr
      · obtain ⟨j, hj, heq⟩ := List.mem_map.mp hl
        cases heq
        exact ⟨List.mem_cons_self _ _, List.mem_range.mp hj⟩
      · obtain ⟨hp, hi⟩ := ih.mp hr
        exact ⟨List.mem_cons.mpr (Or.inr hp), hi⟩
    · rintro ⟨hp, hi⟩
      rcases List.mem_cons.mp hp with rfl | hp
      · exact List.mem_append.mpr
          (Or.inl (List.mem_map.mpr ⟨i, List.mem_range.mpr hi, rfl⟩))
      · exact List.mem_append.mpr (Or.inr (ih.mpr ⟨hp, hi⟩))

theorem insCandidates_ne_nil (path remaining : List Point)
    (hpa : path ≠ []) (hre : remaining ≠ []) : insCandidates path remaining ≠ [] := by
  cases remaining with
  | nil => exact absurd rfl hre
  | cons q rest =>
    have : (q, 0) ∈ insCandidates path (q :: rest) :=
      (mem_insCandidates path (q :: rest) q 0).mpr
        ⟨List.mem_cons_self q rest, List.length_pos.mpr hpa⟩
    exact List.ne_nil_of_mem this

/-! ## Geometry of the monotone-chain hull -/

/-- Strict lexicographic order on points, the strict companion of `lexLe`. -/
def lexLtP (a b : Point) : Prop := a.x < b.x ∨ (a.x = b.x ∧ a.y < b.y)

theorem lexLe_trans (a b c : Point) (hab : lexLe a b) (hbc : lexLe b c) : lexLe a c := by
  simp only [lexLe, decide_eq_true_eq] at hab hbc ⊢
  rcases hab with h | ⟨h1, h2⟩ <;> rcases hbc with g | ⟨g1, g2⟩
  · exact Or.inl (h.trans g)
  · exact Or.inl (g1 ▸ h)
  · exact Or.inl (h1 ▸ g)
  · exact Or.inr ⟨h1.trans g1, h2.trans g2⟩

theorem lexLe_total (a b : Point) : lexLe a b || lexLe b a := by
  simp only [lexLe, Bool.or_eq_true, decide_eq_true_eq]
  rcases lt_trichotomy a.x b.x with h | h | h
  · exact Or.inl (Or.inl h)
  · rcases le_total a.y b.y with h2 | h2
    · exact Or.inl (Or.inr ⟨h, h2⟩)
    · exact Or.inr (Or.inr ⟨h.symm, h2⟩)
  · exact Or.inr (Or.inl h)

theorem lexLtP_of_lexLe_ne (a b : Point) (hle : lexLe a b = true) (hne : a ≠ b) :
    lexLtP a b := by
  simp only [lexLe, decide_eq_true_eq] at hle
  rcases hle with h | ⟨h1, h2⟩
  · exact Or.inl h
  · rcases lt_or_eq_of_le h2 with h3 | h3
    · exact Or.inr ⟨h1, h3⟩
    · exact absurd (by cases a; cases b; simp only at h1 h3; simp [h1, h3]) hne

theorem lexLtP_le_x (a b : Point) (h : lexLtP a b) : a.x ≤ b.x := by
  rcases h with h | ⟨h, _⟩
  · exact h.le
  · exact h.le

theorem lexLtP_ne (a b : Point) (h : lexLtP a b) : a ≠ b := by
  rintro rfl
  rcases h with h | ⟨_, h⟩ <;> exact lt_irrefl _ h

/-- The list sorted by the component's lexicographic comparator is pairwise
strictly increasing when the points are distinct. -/
theorem mergeSort_pairwise_lexLtP (pts : List Point) (hnd : pts.Nodup) :
    (pts.mergeSort lexLe).Pairwise lexLtP := by
  have hsorted : (pts.mergeSort lexLe).Pairwise (fun a b => lexLe a b = true) := by
    simpa using @List.sorted_mergeSort Point lexLe
      (fun a b c => lexLe_trans a b c) (fun a b => lexLe_total a b) pts
  have hnd2 : (pts.mergeSort lexLe).Nodup := ((List.mergeSort_perm pts lexLe).nodup_iff).mpr hnd
  exact (hsorted.and hnd2).imp (fun {a b} h => lexLtP_of_lexLe_ne a b h.1 h.2)

theorem cross_rev (a b c : Point) : cross c b a = -(cross a b c) := by
  unfold cross; ring

theorem cross_self_left (o b : Point) : cross o o b = 0 := by
  unfold cross; ring

theorem cross_self_right (o a : Point) : cross o a a = 0 := by
  unfold cross; ring

/-- Consecutive-pair predicate along a list. -/
def Chain2 (R : Point → Point → Prop) : List Point → Prop
  | a :: b :: rest => R a b ∧ Chain2 R (b :: rest)
  | _ => True

/-- Consecutive-triple turn predicate on a stored (newest-first) chain:
every adjacent stored triple `x, y, z` (with `z` the oldest) makes a strict
turn, `cross x y z < 0`, equivalently `0 < cross z y x` — exactly what the
`<= 0` pop rule of the hull construction leaves behind. -/
def Chain3N : List Point → Prop
  | x :: y :: z :: rest => cross x y z < 0 ∧ Chain3N (y :: z :: rest)
  | _ => True

theorem Chain3N_cons_cons_cons (x y z : Point) (rest : List Point) :
    Chain3N (x :: y :: z :: rest) ↔ cross x y z < 0 ∧ Chain3N (y :: z :: rest) :=
  Iff.rfl

theorem Chain3N_tail : ∀ (x : Point) (ch : List Point), Chain3N (x :: ch) → Chain3N ch
  | _, [], _ => trivial
  | _, [_], _ => trivial
  | _, _ :: _ :: _, h => h.2

theorem popChain_isSuffix (p : Point) : ∀ (ch : List Point), (popChain p ch) <:+ ch
  | [] => List.suffix_refl _
  | [a] => List.suffix_refl _
  | b :: a :: rest => by
    rw [popChain]
    by_cases h : cross a b p ≤ 0
    · rw [if_pos h]
      exact (popChain_isSuffix p (a :: rest)).trans (List.suffix_cons b (a :: rest))
    · rw [if_neg h]

theorem popChain_ne_nil (p : Point) : ∀ (ch : List Point), ch ≠ [] → popChain p ch ≠ []
  | [], h => absurd rfl h
  | [a], _ => by simp [popChain]
  | b :: a :: rest, _ => by
    rw [popChain]
    by_cases h : cross a b p ≤ 0
    · rw [if_pos h]
      exact popChain_ne_nil p (a :: rest) (by simp)
    · rw [if_neg h]
      simp

theorem Chain3N_suffix (s ch : List Point) (hs : s <:+ ch) (h : Chain3N ch) :
    Chain3N s := by
  obtain ⟨t, rfl⟩ := hs
  induction t with
  | nil => exact h
  | cons x t ih => exact ih (Chain3N_tail x (t ++ s) h)

theorem popChain_stop (p : Point) : ∀ (ch : List Point) (b a : Point) (rest : List Point),
    popChain p ch = b :: a :: rest → 0 < cross a b p
  | [], _, _, _ => by intro h; simp [popChain] at h
  | [c], b, a, rest => by intro h; simp [popChain] at h
  | c :: q :: ch, b, a, rest => by
    intro h
    rw [popChain] at h
    by_cases hc : cross q c p ≤ 0
    · rw [if_pos hc] at h
      exact popChain_stop p (q :: ch) b a rest h
    · rw [if_neg hc] at h
      injection h with h1 h2
      injection h2 with h3 h4
      subst h1
      subst h3
      exact lt_of_not_le hc

theorem Chain3N_push (p : Point) (ch : List Point) (h : Chain3N ch) :
    Chain3N (p :: popChain p ch) := by
  rcases hpop : popChain p ch with _ | ⟨b, rest⟩
  · trivial
  · rcases rest with _ | ⟨a, rest2⟩
    · trivial
    · refine ⟨?_, ?_⟩
      · have := popChain_stop p ch b a rest2 hpop
        have hrev := cross_rev a b p
        linarith [this, hrev.ge.trans_eq rfl]
      · exact hpop ▸ Chain3N_suffix _ ch (popChain_isSuffix p ch) h

theorem buildChain_chain3N (l : List Point) : Chain3N (buildChain l) := by
  have key : ∀ (l acc : List Point), Chain3N acc →
      Chain3N (l.foldl (fun ch p => p :: popChain p ch) acc) := by
    intro l
    induction l with
    | nil => intro acc h; exact h
    | cons x l ih =>
      intro acc h
      exact ih _ (Chain3N_push x acc h)
  exact key l [] trivial

theorem buildChain_sublist (l : List Point) : List.Sublist (buildChain l).reverse l := by
  have key : ∀ (l acc procd : List Point), List.Sublist acc.reverse procd →
      List.Sublist ((l.foldl (fun ch p => p :: popChain p ch) acc).reverse) (procd ++ l) := by
    intro l
    induction l with
    | nil => intro acc procd h; simpa using h
    | cons x l ih =>
      intro acc procd h
      have hpop : List.Sublist (popChain x acc).reverse acc.reverse := by
        obtain ⟨t, ht⟩ := popChain_isSuffix x acc
        conv_rhs => rw [← ht, List.reverse_append]
        exact List.sublist_append_left _ _
      have hstep : List.Sublist (x :: popChain x acc).reverse (procd ++ [x]) := by
        rw [List.reverse_cons]
        exact (hpop.trans h).append (List.Sublist.refl [x])
      have := ih (x :: popChain x acc) (procd ++ [x]) hstep
      simpa [List.append_assoc] using this
  simpa using key l [] [] (by simp)

theorem buildChain_ne_nil (l : List Point) (h : l ≠ []) : buildChain l ≠ [] := by
  have key : ∀ (l acc : List Point), acc ≠ [] →
      l.foldl (fun ch p => p :: popChain p ch) acc ≠ [] := by
    intro l
    induction l with
    | nil => intro acc h; exact h
    | cons x l ih => intro acc _; exact ih _ (by simp)
  cases l with
  | nil => exact absurd rfl h
  | cons x rest =>
    unfold buildChain
    rw [List.foldl_cons]
    exact key rest _ (by simp [popChain])

theorem getLast?_of_suffix (s ch : List Point) (hs : s <:+ ch) (hne : s ≠ []) :
    s.getLast? = ch.getLast? := by
  obtain ⟨t, rfl⟩ := hs
  rw [List.getLast?_append]
  cases hsl : s.getLast? with
  | none => exact absurd (List.getLast?_eq_none_iff.mp hsl) hne
  | some a => rfl

theorem buildChain_getLast? (l : List Point) (hne : l ≠ []) :
    (buildChain l).getLast? = l.head? := by
  have key : ∀ (l acc : List Point), acc ≠ [] →
      (l.foldl (fun ch p => p :: popChain p ch) acc).getLast? = acc.getLast? ∧
      l.foldl (fun ch p => p :: popChain p ch) acc ≠ [] := by
    intro l
    induction l with
    | nil => intro acc h; exact ⟨rfl, h⟩
    | cons x l ih =>
      intro acc hacc
      have hstep : (x :: popChain x acc).getLast? = acc.getLast? := by
        have hpne := popChain_ne_nil x acc hacc
        rw [List.getLast?_cons]
        cases hp : popChain x acc with
        | nil => exact absurd hp hpne
        | cons q rest =>
          have : (q :: rest).getLast? = acc.getLast? :=
            getLast?_of_suffix _ acc (hp ▸ popChain_isSuffix x acc) (by simp)
          simpa using this
      obtain ⟨ih1, ih2⟩ := ih (x :: popChain x acc) (by simp)
      exact ⟨ih1.trans hstep, ih2⟩
  cases l with
  | nil => exact absurd rfl hne
  | cons x rest =>
    unfold buildChain
    rw [List.foldl_cons]
    have := key rest (x :: popChain x []) (by simp)
    simpa [popChain] using this.1

theorem buildChain_head? (l : List Point) (hne : l ≠ []) :
    (buildChain l).head? = l.getLast? := by
  have key : ∀ (l acc : List Point), l ≠ [] →
      (l.foldl (fun ch p => p :: popChain p ch) acc).head? = l.getLast? := by
    intro l
    induction l with
    | nil => intro acc h; exact absurd rfl h
    | cons x l ih =>
      intro acc _
      cases l with
      | nil => simp
      | cons y l2 =>
        rw [List.foldl_cons]
        rw [ih _ (by simp)]
        simp
  exact key l [] hne

/-- Left-turn composition along a lex-increasing chain. -/
theorem fanStepInc (o a b c : Point) (hoa : lexLtP o a) (hab : lexLtP a b)
    (hbc : lexLtP b c) (h1 : cross o a b < 0) (h2 : cross a b c < 0) :
    cross o b c < 0 := by
  have hoax : o.x ≤ a.x := lexLtP_le_x o a hoa
  have habx : a.x ≤ b.x := lexLtP_le_x a b hab
  have hbcx : b.x ≤ c.x := lexLtP_le_x b c hbc
  have hid : (b.x - a.x) * cross o b c
      = (c.x - b.x) * cross o a b + (b.x - o.x) * cross a b c := by
    unfold cross; ring
  rcases eq_or_lt_of_le habx with heq | hlt
  · exfalso
    have ht1 : (c.x - b.x) * cross o a b ≤ 0 :=
      mul_nonpos_of_nonneg_of_nonpos (by linarith) h1.le
    have ht2 : (b.x - o.x) * cross a b c ≤ 0 :=
      mul_nonpos_of_nonneg_of_nonpos (by linarith) h2.le
    have hz : (c.x - b.x) * cross o a b + (b.x - o.x) * cross a b c = 0 := by
      rw [← hid, ← heq]; ring
    have h1z : (c.x - b.x) * cross o a b = 0 := by linarith
    have h2z : (b.x - o.x) * cross a b c = 0 := by linarith
    have hcx : c.x = b.x := by
      rcases mul_eq_zero.mp h1z with h | h
      · linarith
      · exact absurd h h1.ne
    have hox : b.x = o.x := by
      rcases mul_eq_zero.mp h2z with h | h
      · linarith
      · exact absurd h h2.ne
    have hzero : cross o a b = 0 := by
      unfold cross
      rw [show a.x = o.x from by linarith, show b.x = o.x from by linarith]
      ring
    exact absurd hzero h1.ne
  · by_contra hX
    push_neg at hX
    have hL : 0 ≤ (b.x - a.x) * cross o b c := mul_nonneg (by linarith) hX
    have ht1 : (c.x - b.x) * cross o a b ≤ 0 :=
      mul_nonpos_of_nonneg_of_nonpos (by linarith) h1.le
    have ht2 : (b.x - o.x) * cross a b c < 0 :=
      mul_neg_of_pos_of_neg (by linarith) h2
    linarith [hid]

/-- Left-turn composition along a lex-decreasing chain. -/
theorem fanStepDec (o a b c : Point) (hoa : lexLtP a o) (hab : lexLtP b a)
    (hbc : lexLtP c b) (h1 : cross o a b < 0) (h2 : cross a b c < 0) :
    cross o b c < 0 := by
  have hoax : a.x ≤ o.x := lexLtP_le_x a o hoa
  have habx : b.x ≤ a.x := lexLtP_le_x b a hab
  have hbcx : c.x ≤ b.x := lexLtP_le_x c b hbc
  have hid : (b.x - a.x) * cross o b c
      = (c.x - b.x) * cross o a b + (b.x - o.x) * cross a b c := by
    unfold cross; ring
  rcases eq_or_lt_of_le habx with heq | hlt
  · exfalso
    have hyy : b.y < a.y := by
      rcases hab with h | ⟨_, h⟩
      · exact absurd heq (ne_of_lt h)
      · exact h
    have hsimp : cross o a b = (a.x - o.x) * (b.y - a.y) := by
      unfold cross
      rw [heq]
      ring
    have : 0 ≤ cross o a b := by
      rw [hsimp]
      exact mul_nonneg_of_nonpos_of_nonpos (by linarith) (by linarith)
    linarith
  · by_contra hX
    push_neg at hX
    have hL : (b.x - a.x) * cross o b c ≤ 0 :=
      mul_nonpos_of_nonpos_of_nonneg (by linarith) hX
    have ht1 : 0 ≤ (c.x - b.x) * cross o a b :=
      mul_nonneg_of_nonpos_of_nonpos (by linarith) h1.le
    have ht2 : 0 < (b.x - o.x) * cross a b c :=
      mul_pos_of_neg_of_neg (by linarith) h2
    linarith [hid]

/-- Transitivity of the turn relation seen from a lex-least apex. -/
theorem transInc (o a b c : Point) (hoa : lexLtP o a) (hob : lexLtP o b)
    (hoc : lexLtP o c) (h1 : cross o a b < 0) (h2 : cross o b c < 0) :
    cross o a c < 0 := by
  have hoax : o.x ≤ a.x := lexLtP_le_x o a hoa
  have hobx : o.x ≤ b.x := lexLtP_le_x o b hob
  have hocx : o.x ≤ c.x := lexLtP_le_x o c hoc
  have hbx : o.x < b.x := by
    rcases eq_or_lt_of_le hobx with heq | h
    · exfalso
      have hby : o.y < b.y := by
        rcases hob with h | ⟨_, h⟩
        · exact absurd heq (ne_of_lt h)
        · exact h
      have hsimp : cross o a b = (a.x - o.x) * (b.y - o.y) := by
        unfold cross
        rw [← heq]
        ring
      have : 0 ≤ cross o a b := by
        rw [hsimp]
        exact mul_nonneg (by linarith) (by linarith)
      linarith
    · exact h
  have hcx : o.x < c.x := by
    rcases eq_or_lt_of_le hocx with heq | h
    · exfalso
      have hcy : o.y < c.y := by
        rcases hoc with h | ⟨_, h⟩
        · exact absurd heq (ne_of_lt h)
        · exact h
      have hsimp : cross o b c = (b.x - o.x) * (c.y - o.y) := by
        unfold cross
        rw [← heq]
        ring
      have : 0 < cross o b c := by
        rw [hsimp]
        exact mul_pos (by linarith) (by linarith)
      linarith
    · exact h
  have hid : (b.x - o.x) * cross o a c
      = (c.x - o.x) * cross o a b + (a.x - o.x) * cross o b c := by
    unfold cross; ring
  by_contra hX
  push_neg at hX
  have hL : 0 ≤ (b.x - o.x) * cross o a c := mul_nonneg (by linarith) hX
  have ht1 : (c.x - o.x) * cross o a b < 0 := mul_neg_of_pos_of_neg (by linarith) h1
  have ht2 : (a.x - o.x) * cross o b c ≤ 0 :=
    mul_nonpos_of_nonneg_of_nonpos (by linarith) h2.le
  linarith [hid]

/-- Transitivity of the turn relation seen from a lex-greatest apex. -/
theorem transDec (o a b c : Point) (hoa : lexLtP a o) (hob : lexLtP b o)
    (hoc : lexLtP c o) (h1 : cross o a b < 0) (h2 : cross o b c < 0) :
    cross o a c < 0 := by
  have hoax : a.x ≤ o.x := lexLtP_le_x a o hoa
  have hobx : b.x ≤ o.x := lexLtP_le_x b o hob
  have hocx : c.x ≤ o.x := lexLtP_le_x c o hoc
  have hbx : b.x < o.x := by
    rcases eq_or_lt_of_le hobx with heq | h
    · exfalso
      have hby : b.y < o.y := by
        rcases hob with h | ⟨_, h⟩
        · exact absurd heq (ne_of_lt h)
        · exact h
      have hsimp : cross o a b = (a.x - o.x) * (b.y - o.y) := by
        unfold cross
        rw [heq]
        ring
      have : 0 ≤ cross o a b := by
        rw [hsimp]
        exact mul_nonneg_of_nonpos_of_nonpos (by linarith) (by linarith)
      linarith
    · exact h
  have hcx : c.x < o.x := by
    rcases eq_or_lt_of_le hocx with heq | h
    · exfalso
      have hcy : c.y < o.y := by
        rcases hoc with h | ⟨_, h⟩
        · exact absurd heq (ne_of_lt h)
        · exact h
      have hsimp : cross o b c = (b.x - o.x) * (c.y - o.y) := by
        unfold cross
        rw [heq]
        ring
      have : 0 < cross o b c := by
        rw [hsimp]
        exact mul_pos_of_neg_of_neg (by linarith) (by linarith)
      linarith
    · exact h
  have hid : (b.x - o.x) * cross o a c
      = (c.x - o.x) * cross o a b + (a.x - o.x) * cross o b c := by
    unfold cross; ring
  by_contra hX
  push_neg at hX
  have hL : (b.x - o.x) * cross o a c ≤ 0 :=
    mul_nonpos_of_nonpos_of_nonneg (by linarith) hX
  have ht1 : 0 < (c.x - o.x) * cross o a b := mul_pos_of_neg_of_neg (by linarith) h1
  have ht2 : 0 ≤ (a.x - o.x) * cross o b c :=
    mul_nonneg_of_nonpos_of_nonpos (by linarith) h2.le
  linarith [hid]

theorem pairwise_head_rel {R : Point → Point → Prop} {o : Point} {l : List Point}
    (h : (o :: l).Pairwise R) : ∀ z ∈ l, R o z :=
  (List.pairwise_cons.mp h).1

/-- The whole chain turns one way when seen from its first element
(lex-increasing chains). -/
theorem fanInc (o : Point) : ∀ (l : List Point), Chain3N (o :: l) →
    (o :: l).Pairwise lexLtP → Chain2 (fun a b => cross o a b < 0) l
  | [], _, _ => trivial
  | [_], _, _ => trivial
  | a :: b :: t, hch, hpw => by
    have h1 : cross o a b < 0 := hch.1
    refine ⟨h1, ?_⟩
    have hpw2 : (o :: b :: t).Pairwise lexLtP :=
      hpw.sublist ((List.sublist_cons_self a (b :: t)).cons₂ o)
    have hch2 : Chain3N (o :: b :: t) := by
      cases t with
      | nil => trivial
      | cons c t2 =>
        have h2 : cross a b c < 0 := hch.2.1
        have hoa : lexLtP o a := pairwise_head_rel hpw a (by simp)
        have hab : lexLtP a b :=
          pairwise_head_rel (List.pairwise_cons.mp hpw).2 b (by simp)
        have hbc : lexLtP b c :=
          pairwise_head_rel (List.pairwise_cons.mp (List.pairwise_cons.mp hpw).2).2 c (by simp)
        exact ⟨fanStepInc o a b c hoa hab hbc h1 h2, hch.2.2⟩
    exact fanInc o (b :: t) hch2 hpw2

/-- The whole chain turns one way when seen from its first element
(lex-decreasing chains). -/
theorem fanDec (o : Point) : ∀ (l : List Point), Chain3N (o :: l) →
    (o :: l).Pairwise (fun a b => lexLtP b a) → Chain2 (fun a b => cross o a b < 0) l
  | [], _, _ => trivial
  | [_], _, _ => trivial
  | a :: b :: t, hch, hpw => by
    have h1 : cross o a b < 0 := hch.1
    refine ⟨h1, ?_⟩
    have hpw2 : (o :: b :: t).Pairwise (fun a b => lexLtP b a) :=
      hpw.sublist ((List.sublist_cons_self a (b :: t)).cons₂ o)
    have hch2 : Chain3N (o :: b :: t) := by
      cases t with
      | nil => trivial
      | cons c t2 =>
        have h2 : cross a b c < 0 := hch.2.1
        have hoa : lexLtP a o := pairwise_head_rel hpw a (by simp)
        have hab : lexLtP b a :=
          pairwise_head_rel (List.pairwise_cons.mp hpw).2 b (by simp)
        have hbc : lexLtP c b :=
          pairwise_head_rel (List.pairwise_cons.mp (List.pairwise_cons.mp hpw).2).2 c (by simp)
        exact ⟨fanStepDec o a b c hoa hab hbc h1 h2, hch.2.2⟩
    exact fanDec o (b :: t) hch2 hpw2

/-- Chord property, increasing version: every element of a fanned chain other
than the last lies strictly on the turn side of the chord from the apex to
the last element. -/
theorem chordFromFanInc (o : Point) : ∀ (t : List Point) (hne : t ≠ []),
    Chain2 (fun a b => cross o a b < 0) t → (o :: t).Pairwise lexLtP →
    ∀ v ∈ t.dropLast, cross o v (t.getLast hne) < 0
  | [], hne, _, _ => absurd rfl hne
  | [_], _, _, _ => by simp
  | x :: y :: t2, _, hc2, hpw => by
    intro v hv
    rw [List.dropLast_cons₂] at hv
    have hlast : (x :: y :: t2).getLast (by simp) = (y :: t2).getLast (by simp) := by
      rw [List.getLast_cons]
    rw [hlast]
    have hpw2 : (o :: y :: t2).Pairwise lexLtP :=
      hpw.sublist ((List.sublist_cons_self x (y :: t2)).cons₂ o)
    rcases List.mem_cons.mp hv with rfl | hv2
    · have hxy : cross o v y < 0 := hc2.1
      cases t2 with
      | nil => simpa using hxy
      | cons z t3 =>
        have hmemy : y ∈ (y :: z :: t3).dropLast := by
          rw [List.dropLast_cons₂]
          simp
        have hyl : cross o y ((y :: z :: t3).getLast (by simp)) < 0 :=
          chordFromFanInc o (y :: z :: t3) (by simp) hc2.2 hpw2 y hmemy
        have hov : lexLtP o v := pairwise_head_rel hpw v (by simp)
        have hoy : lexLtP o y := pairwise_head_rel hpw y (by simp)
        have hol : lexLtP o ((y :: z :: t3).getLast (by simp)) :=
          pairwise_head_rel hpw _ (by
            have := List.getLast_mem (l := y :: z :: t3) (by simp)
            simp only [List.mem_cons] at this ⊢
            tauto)
        exact transInc o v y _ hov hoy hol hxy hyl
    · exact chordFromFanInc o (y :: t2) (by simp) hc2.2 hpw2 v hv2

/-- Chord property, decreasing version. -/
theorem chordFromFanDec (o : Point) : ∀ (t : List Point) (hne : t ≠ []),
    Chain2 (fun a b => cross o a b < 0) t →
    (o :: t).Pairwise (fun a b => lexLtP b a) →
    ∀ v ∈ t.dropLast, cross o v (t.getLast hne) < 0
  | [], hne, _, _ => absurd rfl hne
  | [_], _, _, _ => by simp
  | x :: y :: t2, _, hc2, hpw => by
    intro v hv
    rw [List.dropLast_cons₂] at hv
    have hlast : (x :: y :: t2).getLast (by simp) = (y :: t2).getLast (by simp) := by
      rw [List.getLast_cons]
    rw [hlast]
    have hpw2 : (o :: y :: t2).Pairwise (fun a b => lexLtP b a) :=
      hpw.sublist ((List.sublist_cons_self x (y :: t2)).cons₂ o)
    rcases List.mem_cons.mp hv with rfl | hv2
    · have hxy : cross o v y < 0 := hc2.1
      cases t2 with
      | nil => simpa using hxy
      | cons z t3 =>
        have hmemy : y ∈ (y :: z :: t3).dropLast := by
          rw [List.dropLast_cons₂]
          simp
        have hyl : cross o y ((y :: z :: t3).getLast (by simp)) < 0 :=
          chordFromFanDec o (y :: z :: t3) (by simp) hc2.2 hpw2 y hmemy
        have hov : lexLtP v o := pairwise_head_rel hpw v (by simp)
        have hoy : lexLtP y o := pairwise_head_rel hpw y (by simp)
        have hol : lexLtP ((y :: z :: t3).getLast (by simp)) o :=
          pairwise_head_rel hpw _ (by
            have := List.getLast_mem (l := y :: z :: t3) (by simp)
            simp only [List.mem_cons] at this ⊢
            tauto)
        exact transDec o v y _ hov hoy hol hxy hyl
    · exact chordFromFanDec o (y :: t2) (by simp) hc2.2 hpw2 v hv2

theorem reverse_dropLast_tail (l : List Point) : l.reverse.dropLast = l.tail.reverse := by
  cases l with
  | nil => rfl
  | cons a t => simp [List.reverse_cons, List.dropLast_concat]

/-- The hull as the two stored chains minus their oldest elements. -/
theorem hullOf_eq (pts : List Point) :
    hullOf pts = (buildChain (pts.mergeSort lexLe)).tail.reverse
      ++ (buildChain (pts.mergeSort lexLe).reverse).tail.reverse := by
  simp only [hullOf]
  rw [reverse_dropLast_tail, reverse_dropLast_tail]

theorem buildChain_subset (l : List Point) : ∀ z ∈ buildChain l, z ∈ l := by
  intro z hz
  exact (buildChain_sublist l).subset (List.mem_reverse.mpr hz)

theorem buildChain_nodup (l : List Point) (h : l.Nodup) : (buildChain l).Nodup :=
  List.nodup_reverse.mp ((buildChain_sublist l).nodup h)

theorem buildChain_pairwise_flip {R : Point → Point → Prop} (l : List Point)
    (hpw : l.Pairwise R) : (buildChain l).Pairwise (fun a b => R b a) :=
  List.pairwise_reverse.mp (hpw.sublist (buildChain_sublist l))

theorem hullOf_subset (pts : List Point) : ∀ z ∈ hullOf pts, z ∈ pts := by
  intro z hz
  rw [hullOf_eq] at hz
  rcases List.mem_append.mp hz with h | h
  · have h2 : z ∈ buildChain (pts.mergeSort lexLe) :=
      List.mem_of_mem_tail (List.mem_reverse.mp h)
    exact (List.mergeSort_perm pts lexLe).subset (buildChain_subset _ z h2)
  · have h2 : z ∈ buildChain (pts.mergeSort lexLe).reverse :=
      List.mem_of_mem_tail (List.mem_reverse.mp h)
    have := buildChain_subset _ z h2
    exact (List.mergeSort_perm pts lexLe).subset (List.mem_reverse.mp this)

/-- Everything in a stored chain's tail is either the chain's oldest point
(the first input point `m`) or lies strictly on the negative side of the
chord from the chain's newest point to `m`.  Decreasing-stored version
(input lex-increasing, used for the lower chain). -/
theorem chain_tail_side_dec (m : Point) (rest : List Point)
    (hpw : (m :: rest).Pairwise lexLtP) :
    ∀ z ∈ (buildChain (m :: rest)).tail,
      z = m ∨ cross ((buildChain (m :: rest)).headD origin) z m < 0 := by
  intro z hz
  rcases hS : buildChain (m :: rest) with _ | ⟨s0, tail⟩
  · exact absurd hS (buildChain_ne_nil _ (by simp))
  · rw [hS] at hz
    simp only [List.tail_cons] at hz
    by_cases htne : tail = []
    · rw [htne] at hz
      simp at hz
    · have hlastS : tail.getLast htne = m := by
        have h1 : (buildChain (m :: rest)).getLast? = some m := by
          rw [buildChain_getLast? _ (by simp)]
          rfl
        rw [hS] at h1
        have h2 : (s0 :: tail).getLast (by simp) = m := by
          rw [List.getLast?_eq_getLast _ (by simp)] at h1
          exact Option.some_injective _ h1
        rw [List.getLast_cons htne] at h2
        exact h2
      have hdec : tail = tail.dropLast ++ [m] := by
        conv_lhs => rw [← List.dropLast_append_getLast htne]
        rw [hlastS]
      have hpwS : (s0 :: tail).Pairwise (fun a b => lexLtP b a) := by
        rw [← hS]
        exact buildChain_pairwise_flip _ hpw
      have hch3 : Chain3N (s0 :: tail) := by
        rw [← hS]
        exact buildChain_chain3N _
      rcases (by rw [hdec] at hz; exact List.mem_append.mp hz :
          z ∈ tail.dropLast ∨ z ∈ [m]) with hmid | hm
      · refine Or.inr ?_
        have hfan : Chain2 (fun a b => cross s0 a b < 0) tail := fanDec s0 tail hch3 hpwS
        have := chordFromFanDec s0 tail htne hfan hpwS z hmid
        rw [hlastS] at this
        simpa [hS] using this
      · exact Or.inl (by simpa using hm)

/-- Increasing-stored version (input lex-decreasing, used for the upper
chain). -/
theorem chain_tail_side_inc (m : Point) (rest : List Point)
    (hpw : (m :: rest).Pairwise (fun a b => lexLtP b a)) :
    ∀ z ∈ (buildChain (m :: rest)).tail,
      z = m ∨ cross ((buildChain (m :: rest)).headD origin) z m < 0 := by
  intro z hz
  rcases hS : buildChain (m :: rest) with _ | ⟨s0, tail⟩
  · exact absurd hS (buildChain_ne_nil _ (by simp))
  · rw [hS] at hz
    simp only [List.tail_cons] at hz
    by_cases htne : tail = []
    · rw [htne] at hz
      simp at hz
    · have hlastS : tail.getLast htne = m := by
        have h1 : (buildChain (m :: rest)).getLast? = some m := by
          rw [buildChain_getLast? _ (by simp)]
          rfl
        rw [hS] at h1
        have h2 : (s0 :: tail).getLast (by simp) = m := by
          rw [List.getLast?_eq_getLast _ (by simp)] at h1
          exact Option.some_injective _ h1
        rw [List.getLast_cons htne] at h2
        exact h2
      have hdec : tail = tail.dropLast ++ [m] := by
        conv_lhs => rw [← List.dropLast_append_getLast htne]
        rw [hlastS]
      have hpwS : (s0 :: tail).Pairwise lexLtP := by
        have h1 : (buildChain (m :: rest)).Pairwise
            (fun a b => (fun a b => lexLtP b a) b a) := buildChain_pairwise_flip _ hpw
        rw [hS] at h1
        exact h1
      have hch3 : Chain3N (s0 :: tail) := by
        rw [← hS]
        exact buildChain_chain3N _
      rcases (by rw [hdec] at hz; exact List.mem_append.mp hz :
          z ∈ tail.dropLast ∨ z ∈ [m]) with hmid | hm
      · refine Or.inr ?_
        have hfan : Chain2 (fun a b => cross s0 a b < 0) tail := fanInc s0 tail hch3 hpwS
        have := chordFromFanInc s0 tail htne hfan hpwS z hmid
        rw [hlastS] at this
        simpa [hS] using this
      · exact Or.inl (by simpa using hm)

theorem two_le_length_of_head_ne_last (l : List Point) (a b : Point)
    (ha : l.head? = some a) (hb : l.getLast? = some b) (hne : a ≠ b) :
    2 ≤ l.length := by
  cases l with
  | nil => simp at ha
  | cons c t =>
    cases t with
    | nil =>
      apply absurd _ hne
      have h1 : a = c := by
        rw [List.head?_cons] at ha
        exact (Option.some_injective _ ha).symm
      have h2 : b = c := by
        have hsing : ([c] : List Point).getLast? = some c := rfl
        rw [hsing] at hb
        exact (Option.some_injective _ hb).symm
      rw [h1, h2]
    | cons e t2 => simp

/-- Heads, lasts and orders of the two stored chains, for a point set with at
least two distinct points. -/
theorem sorted_endpoints (pts : List Point) (hnd : pts.Nodup) (h2 : 2 ≤ pts.length) :
    ∃ m M rest restR, pts.mergeSort lexLe = m :: rest ∧
      (pts.mergeSort lexLe).reverse = M :: restR ∧ m ≠ M ∧
      (m :: rest).Pairwise lexLtP ∧ (M :: restR).Pairwise (fun a b => lexLtP b a) ∧
      (buildChain (m :: rest)).head? = some M ∧
      (buildChain (M :: restR)).head? = some m := by
  have hlen : 2 ≤ (pts.mergeSort lexLe).length := by
    rw [List.length_mergeSort]
    exact h2
  rcases hsorted : pts.mergeSort lexLe with _ | ⟨m, rest⟩
  · rw [hsorted] at hlen
    simp at hlen
  · have hrestne : rest ≠ [] := by
      intro h
      rw [hsorted, h] at hlen
      simp at hlen
    have hpw : (m :: rest).Pairwise lexLtP := hsorted ▸ mergeSort_pairwise_lexLtP pts hnd
    rcases hrev : (m :: rest).reverse with _ | ⟨M, restR⟩
    · exact absurd hrev (by simp)
    · have hgetLast : (m :: rest).getLast? = some M := by
        rw [← List.head?_reverse, hrev]
        rfl
      have hMrest : M ∈ rest := by
        cases rest with
        | nil => exact absurd rfl hrestne
        | cons r1 r2 =>
          rw [List.getLast?_cons_cons] at hgetLast
          exact List.mem_of_mem_getLast? hgetLast
      have hmM : m ≠ M :=
        lexLtP_ne m M (pairwise_head_rel hpw M hMrest)
      refine ⟨m, M, rest, restR, rfl, rfl, hmM, hpw, ?_, ?_, ?_⟩
      · have := List.pairwise_reverse.mpr hpw
        rw [hrev] at this
        exact this
      · rw [buildChain_head? _ (by simp), hgetLast]
      · rw [buildChain_head? _ (by simp), ← hrev, List.getLast?_reverse]
        rfl

/-- The hull list of a duplicate-free point set is duplicate-free: the two
chain interiors lie on strictly opposite sides of the chord from the
lex-least to the lex-greatest point. -/
theorem hullOf_nodup (pts : List Point) (hnd : pts.Nodup) : (hullOf pts).Nodup := by
  rw [hullOf_eq]
  by_cases h2 : 2 ≤ pts.length
  · obtain ⟨m, M, rest, restR, hsorted, hrev, hmM, hpw, hpwR, hLhead, hUhead⟩ :=
      sorted_endpoints pts hnd h2
    have hndS : (m :: rest).Nodup := by
      rw [← hsorted]
      exact ((List.mergeSort_perm pts lexLe).nodup_iff).mpr hnd
    have hndR : (M :: restR).Nodup := by
      rw [← hrev]
      exact List.nodup_reverse.mpr (((List.mergeSort_perm pts lexLe).nodup_iff).mpr hnd)
    rw [hrev, hsorted]
    have hLnodup : ((buildChain (m :: rest)).tail.reverse).Nodup :=
      List.nodup_reverse.mpr
        ((List.tail_sublist _).nodup (buildChain_nodup _ hndS))
    have hUnodup : ((buildChain (M :: restR)).tail.reverse).Nodup :=
      List.nodup_reverse.mpr
        ((List.tail_sublist _).nodup (buildChain_nodup _ hndR))
    rw [List.nodup_append]
    refine ⟨hLnodup, hUnodup, ?_⟩
    intro z hz1 hz2
    have hzL := chain_tail_side_dec m rest hpw z (List.mem_reverse.mp hz1)
    have hzU := chain_tail_side_inc M restR hpwR z (List.mem_reverse.mp hz2)
    have hLheadD : (buildChain (m :: rest)).headD origin = M := by
      rw [List.headD_eq_head?_getD, hLhead]
      rfl
    have hUheadD : (buildChain (M :: restR)).headD origin = m := by
      rw [List.headD_eq_head?_getD, hUhead]
      rfl
    rw [hLheadD] at hzL
    rw [hUheadD] at hzU
    rcases hzL with rfl | hL
    · rcases hzU with rfl | hU
      · exact hmM rfl
      · rw [cross_self_left] at hU
        exact lt_irrefl _ hU
    · rcases hzU with rfl | hU
      · rw [cross_self_left] at hL
        exact lt_irrefl _ hL
      · have := cross_rev m z M
        linarith
  · push_neg at h2
    have hlen : (pts.mergeSort lexLe).length ≤ 1 := by
      rw [List.length_mergeSort]
      omega
    rcases hsorted : pts.mergeSort lexLe with _ | ⟨m, rest⟩
    · simp [buildChain]
    · rcases hrest : rest with _ | ⟨r1, r2⟩
      · subst hrest
        simp [buildChain, popChain]
      · rw [hsorted, hrest] at hlen
        simp at hlen

/-- With at least two points the hull keeps at least two points (the
lex-least and lex-greatest survive, one per chain part). -/
theorem hullOf_two_le_length (pts : List Point) (hnd : pts.Nodup)
    (h2 : 2 ≤ pts.length) : 2 ≤ (hullOf pts).length := by
  obtain ⟨m, M, rest, restR, hsorted, hrev, hmM, hpw, hpwR, hLhead, hUhead⟩ :=
    sorted_endpoints pts hnd h2
  rw [hullOf_eq, hrev, hsorted]
  have hLlast : (buildChain (m :: rest)).getLast? = some m := by
    rw [buildChain_getLast? _ (by simp)]
    rfl
  have hUlast : (buildChain (M :: restR)).getLast? = some M := by
    rw [buildChain_getLast? _ (by simp)]
    rfl
  have hL2 : 2 ≤ (buildChain (m :: rest)).length :=
    two_le_length_of_head_ne_last _ M m hLhead hLlast (Ne.symm hmM)
  have hU2 : 2 ≤ (buildChain (M :: restR)).length :=
    two_le_length_of_head_ne_last _ m M hUhead hUlast hmM
  rw [List.length_append, List.length_reverse, List.length_reverse,
    List.length_tail, List.length_tail]
  omega

theorem hullOf_ne_nil (pts : List Point) (hnd : pts.Nodup)
    (h2 : 2 ≤ pts.length) : hullOf pts ≠ [] := by
  have := hullOf_two_le_length pts hnd h2
  intro h
  rw [h] at this
  simp at this

/-- Splitting a duplicate-free list along a duplicate-free sublist-by-value:
the selected part followed by the filtered-out rest is a permutation. -/
theorem perm_sub_filter (pts l : List Point) (hnd : pts.Nodup) (hl : l.Nodup)
    (hsub : ∀ x ∈ l, x ∈ pts) :
    (l ++ pts.filter (fun p => decide (p ∉ l))).Perm pts := by
  have hneg : (fun p => decide (p ∉ l)) = (fun p => !(decide (p ∈ l))) := by
    funext p
    simp
  have hpart := List.filter_append_perm (fun p => decide (p ∈ l)) pts
  have hsel : (pts.filter (fun p => decide (p ∈ l))).Perm l := by
    rw [List.perm_ext_iff_of_nodup (hnd.filter _) hl]
    intro a
    simp only [List.mem_filter, decide_eq_true_eq]
    constructor
    · exact fun h => h.2
    · exact fun h => ⟨hsub a h, h⟩
  have hstep : (l ++ pts.filter (fun p => decide (p ∉ l))).Perm
      (pts.filter (fun p => decide (p ∈ l)) ++ pts.filter (fun p => decide (p ∉ l))) :=
    (hsel.symm).append_right _
  have hfin : (pts.filter (fun p => decide (p ∈ l))
      ++ pts.filter (fun p => decide (p ∉ l))).Perm pts := by
    rw [hneg]
    exact hpart
  exact hstep.trans hfin

/-! ## The master lemma for the shared while-loop shape -/

theorem runLoop_spec (step : List Point → List Point → Option (List Point × List Point))
    (emit : List Point → List Point) (stop : Nat → Bool)
    (P : List Point → List Point → Prop)
    (hstep : ∀ pa re, P pa re → re ≠ [] →
      ∃ pa2 re2, step pa re = some (pa2, re2) ∧ P pa2 re2 ∧ re2.length + 1 = re.length) :
    ∀ (fuel k : Nat) (pa re : List Point) (steps : List (List Point)),
      P pa re → re.length ≤ fuel →
      ∃ pa2 re2 k2 steps2,
        runLoop step emit stop fuel k pa re steps = some (pa2, re2, k2, steps2) ∧
        P pa2 re2 ∧ k ≤ k2 ∧ re2.length + (k2 - k) = re.length ∧
        (∀ j, k ≤ j → j < k2 → stop j = false) ∧
        (re2 = [] ∨ stop k2 = true) ∧
        ∃ more, steps2 = steps ++ more
  | 0, k, pa, re, steps, hP, hfuel => by
    have hre : re = [] := List.eq_nil_of_length_eq_zero (Nat.le_zero.mp hfuel)
    subst hre
    refine ⟨pa, [], k, steps, by simp [runLoop], hP, le_refl _, by simp, ?_, Or.inl rfl, [], by simp⟩
    intro j hj hj2
    omega
  | fuel + 1, k, pa, re, steps, hP, hfuel => by
    cases re with
    | nil =>
      refine ⟨pa, [], k, steps, by simp [runLoop], hP, le_refl _, by simp, ?_, Or.inl rfl,
        [], by simp⟩
      intro j hj hj2
      omega
    | cons x re' =>
      by_cases hstop : stop k
      · refine ⟨pa, x :: re', k, steps, by simp [runLoop, hstop], hP, le_refl _, by simp, ?_,
          Or.inr hstop, [], by simp⟩
        intro j hj hj2
        omega
      · obtain ⟨pa2, re2, hsome, hP2, hlen⟩ := hstep pa (x :: re') hP (by simp)
        obtain ⟨pa3, re3, k3, steps3, hrun, hP3, hk3, hlen3, hguard, hexit, more, hsteps⟩ :=
          runLoop_spec step emit stop P hstep fuel (k + 1) pa2 re2 (steps ++ [emit pa2]) hP2
            (by simp only [List.length_cons] at hfuel hlen; omega)
        refine ⟨pa3, re3, k3, steps3, ?_, hP3, by omega,
          by simp only [List.length_cons] at hlen ⊢; omega, ?_, hexit,
          [emit pa2] ++ more, by simp [hsteps]⟩
        · simpa [runLoop, hstop, hsome] using hrun
        · intro j hj hj2
          rcases Nat.eq_or_lt_of_le hj with rfl | hj
          · simpa using hstop
          · exact hguard j hj hj2

/-! ## Step lemmas: each loop body places exactly one point -/

/-- Loop invariant of the insertion strategies: the tour is nonempty and
tour plus remaining is a permutation of the point set. -/
def Inv (pts pa re : List Point) : Prop := pa ≠ [] ∧ (pa ++ re).Perm pts

theorem filter_ne_eq_erase (l : List Point) (p : Point) (hnd : l.Nodup) :
    l.filter (fun q => decide (q ≠ p)) = l.erase p := by
  rw [List.Nodup.erase_eq_filter hnd p]
  congr 1
  funext q
  simp only [bne, decide_not]
  rfl

theorem head?_append_left (l l2 : List Point) (h : l ≠ []) :
    (l ++ l2).head? = l.head? := by
  cases l with
  | nil => exact absurd rfl h
  | cons a t => rfl

theorem closed_tour_head_last (pa : List Point) (h : pa ≠ []) :
    (pa ++ [pa.headD origin]).head? = (pa ++ [pa.headD origin]).getLast? := by
  cases pa with
  | nil => exact absurd rfl h
  | cons a t =>
    rw [List.getLast?_concat]
    rfl

theorem nnStep_ok (d : Dist) (pts : List Point) (start : Point) :
    ∀ pa re, (pa.head? = some start ∧ (pa ++ re).Perm pts) → re ≠ [] →
      ∃ pa2 re2, nnStep d pa re = some (pa2, re2) ∧
        (pa2.head? = some start ∧ (pa2 ++ re2).Perm pts) ∧
        re2.length + 1 = re.length := by
  rintro pa re ⟨hhead, hperm⟩ hne
  rcases hsort : re.mergeSort
      (fun a b => decide (d (pa.getLastD origin) a ≤ d (pa.getLastD origin) b))
      with _ | ⟨next, rest⟩
  · exfalso
    have := (List.mergeSort_perm re (fun a b =>
      decide (d (pa.getLastD origin) a ≤ d (pa.getLastD origin) b))).length_eq
    rw [hsort] at this
    exact hne (List.eq_nil_of_length_eq_zero this.symm)
  · have hpane : pa ≠ [] := by
      intro h
      rw [h] at hhead
      simp at hhead
    have hpermsort : (next :: rest).Perm re := by
      rw [← hsort]
      exact List.mergeSort_perm re _
    refine ⟨pa ++ [next], rest, by simp only [nnStep, hsort], ⟨?_, ?_⟩, ?_⟩
    · rw [head?_append_left pa [next] hpane, hhead]
    · have heq : (pa ++ [next]) ++ rest = pa ++ (next :: rest) := by
        rw [List.append_assoc]
        rfl
      rw [heq]
      exact (List.Perm.append_left pa hpermsort).trans hperm
    · have := hpermsort.length_eq
      simp only [List.length_cons] at this
      omega

theorem aiStep_perm (d : Dist) (pa : List Point) (p : Point) :
    (aiStep d pa p).Perm (p :: pa) := by
  unfold aiStep
  cases h : aiScan d pa p with
  | none => exact insertAt_perm p 0 pa
  | some ci =>
    obtain ⟨c, i⟩ := ci
    exact insertAt_perm p i pa

/-- Permutation bookkeeping shared by every insertion step: inserting a
member `p` of the remaining set anywhere in the tour and erasing it from the
remaining set preserves the invariant and shrinks the remaining set by one. -/
theorem insert_erase_inv (pts pa re pa2 : List Point) (p : Point)
    (hperm : (pa ++ re).Perm pts) (hp : p ∈ re) (hpa2 : pa2.Perm (p :: pa)) :
    (pa2 ++ re.erase p).Perm pts ∧ (re.erase p).length + 1 = re.length := by
  constructor
  · have h1 : (pa2 ++ re.erase p).Perm ((p :: pa) ++ re.erase p) :=
      hpa2.append_right _
    have h2 : ((p :: pa) ++ re.erase p).Perm (pa ++ (p :: re.erase p)) := by
      simpa using List.perm_middle.symm
    have h3 : (pa ++ (p :: re.erase p)).Perm (pa ++ re) :=
      List.Perm.append_left pa (List.perm_cons_erase hp).symm
    exact ((h1.trans h2).trans h3).trans hperm
  · have := List.length_erase_of_mem hp
    have hre : 1 ≤ re.length := List.length_pos.mpr (List.ne_nil_of_mem hp)
    omega

theorem aiStepF_ok (d : Dist) (pts : List Point) :
    ∀ pa re, Inv pts pa re → re ≠ [] →
      ∃ pa2 re2, aiStepF d pa re = some (pa2, re2) ∧ Inv pts pa2 re2 ∧
        re2.length + 1 = re.length := by
  rintro pa re ⟨hpane, hperm⟩ hne
  cases re with
  | nil => exact absurd rfl hne
  | cons p rest =>
    have hpa2 := aiStep_perm d pa p
    have herase : (p :: rest).erase p = rest := by
      simp [List.erase_cons_head]
    obtain ⟨hperm2, hlen⟩ := insert_erase_inv pts pa (p :: rest) (aiStep d pa p) p hperm
      (List.mem_cons_self p rest) hpa2
    rw [herase] at hperm2 hlen
    refine ⟨aiStep d pa p, rest, rfl, ⟨?_, hperm2⟩, hlen⟩
    intro h
    have := hpa2.length_eq
    rw [h] at this
    simp at this

theorem niStep_ok (d : Dist) (pts : List Point) :
    ∀ pa re, Inv pts pa re → re ≠ [] →
      ∃ pa2 re2, niStep d pa re = some (pa2, re2) ∧ Inv pts pa2 re2 ∧
        re2.length + 1 = re.length := by
  rintro pa re ⟨hpane, hperm⟩ hne
  obtain ⟨c, w, hscan⟩ := scanMinBy_isSome
    (fun pi => insertionCost d pa pi.1 pi.2) (insCandidates pa re)
    (insCandidates_ne_nil pa re hpane hne)
  obtain ⟨p, i⟩ := w
  have hmem := (scanMinBy_some_spec _ _ c (p, i) hscan).1
  have hp : p ∈ re := ((mem_insCandidates pa re p i).mp hmem).1
  have hpa2 := insertAt_perm p (i + 1) pa
  obtain ⟨hperm2, hlen⟩ :=
    insert_erase_inv pts pa re (insertAt (i + 1) p pa) p hperm hp hpa2
  refine ⟨insertAt (i + 1) p pa, re.erase p,
    by simp only [niStep, niSelect, hscan], ⟨?_, hperm2⟩, hlen⟩
  intro h
  have := hpa2.length_eq
  rw [h] at this
  simp at this

theorem chStep_ok (d : Dist) (pts : List Point) (hnd : pts.Nodup) :
    ∀ pa re, Inv pts pa re → re ≠ [] →
      ∃ pa2 re2, chStep d pa re = some (pa2, re2) ∧ Inv pts pa2 re2 ∧
        re2.length + 1 = re.length := by
  rintro pa re ⟨hpane, hperm⟩ hne
  have hrend : re.Nodup := (hperm.nodup_iff.mpr hnd).of_append_right
  obtain ⟨c, w, hscan⟩ := scanMinBy_isSome
    (fun pi => insertionCost d pa pi.1 pi.2) (insCandidates pa re)
    (insCandidates_ne_nil pa re hpane hne)
  obtain ⟨p, i⟩ := w
  have hmem := (scanMinBy_some_spec _ _ c (p, i) hscan).1
  have hp : p ∈ re := ((mem_insCandidates pa re p i).mp hmem).1
  have hpa2 := insertAt_perm p (i + 1) pa
  obtain ⟨hperm2, hlen⟩ :=
    insert_erase_inv pts pa re (insertAt (i + 1) p pa) p hperm hp hpa2
  rw [← filter_ne_eq_erase re p hrend] at hperm2 hlen
  refine ⟨insertAt (i + 1) p pa, re.filter (fun q => decide (q ≠ p)),
    by simp only [chStep, niSelect, hscan], ⟨?_, hperm2⟩, hlen⟩
  intro h
  have := hpa2.length_eq
  rw [h] at this
  simp at this

theorem fiStep_ok (d : Dist) (pts : List Point) (hnd : pts.Nodup)
    (hd : ∀ a b, a ≠ b → 0 < d a b) :
    ∀ pa re, Inv pts pa re → re ≠ [] →
      ∃ pa2 re2, fiStep d pa re = some (pa2, re2) ∧ Inv pts pa2 re2 ∧
        re2.length + 1 = re.length := by
  rintro pa re ⟨hpane, hperm⟩ hne
  have hrend : re.Nodup := (hperm.nodup_iff.mpr hnd).of_append_right
  have hdisj : ∀ z ∈ re, ∀ t ∈ pa, z ≠ t := by
    intro z hz t ht
    have hndall : (pa ++ re).Nodup := hperm.nodup_iff.mpr hnd
    intro heq
    subst heq
    exact (List.disjoint_of_nodup_append hndall) ht hz
  have hpos : ∀ z ∈ re, 0 < minDistToPath d pa z := by
    intro z hz
    exact minDistToPath_pos d pa z hpane
      (fun t ht => hd z t (hdisj z hz t ht))
  obtain ⟨sel, hsel, hselmem, _⟩ :=
    scanMaxPos_spec (fun p => minDistToPath d pa p) re hne hpos
  obtain ⟨c, i, hins⟩ := scanMinBy_isSome (fun i => insertionCost d pa sel i)
    (List.range pa.length) (by
      intro h
      rw [List.range_eq_nil] at h
      exact hpane (List.length_eq_zero.mp h))
  have hpa2 := insertAt_perm sel (i + 1) pa
  obtain ⟨hperm2, hlen⟩ :=
    insert_erase_inv pts pa re (insertAt (i + 1) sel pa) sel hperm hselmem hpa2
  rw [← filter_ne_eq_erase re sel hrend] at hperm2 hlen
  refine ⟨insertAt (i + 1) sel pa, re.filter (fun q => decide (q ≠ sel)),
    by simp only [fiStep, fiSelect, hsel, fiInsertScan, hins], ⟨?_, hperm2⟩, hlen⟩
  intro h
  have := hpa2.length_eq
  rw [h] at this
  simp at this

/-! ## Master lemmas: full characterization of each strategy run -/

theorem nearestNeighbor_eq_some (d : Dist) (stop : Nat → Bool) (s : Nat)
    (pts : List Point) (start : Point) (hget : pts.get? s = some start) :
    nearestNeighbor d stop s pts
      = match runLoop (nnStep d) emitOpen stop
          (pts.filter (fun p => decide (p ≠ start))).length 0 [start]
          (pts.filter (fun p => decide (p ≠ start))) [] with
        | none => none
        | some (path, rem, k, steps) =>
          if stop k then some ⟨path, rem, true, steps, pts⟩
          else some ⟨path ++ [start], rem, false, steps, pts⟩ := by
  unfold nearestNeighbor
  rw [hget]

theorem arbitraryInsertion_eq_some (d : Dist) (stop : Nat → Bool) (s : Nat)
    (pts : List Point) (start second : Point) (hget : pts.get? s = some start)
    (hfind : pts.find? (fun p => decide (p ≠ start)) = some second) :
    arbitraryInsertion d stop s pts
      = match runLoop (aiStepF d) emitClosed stop
          (pts.filter (fun p => decide (p ∉ [start, second]))).length 0 [start, second]
          (pts.filter (fun p => decide (p ∉ [start, second]))) [] with
        | none => none
        | some (path, rem, k, steps) =>
          if stop k then some ⟨path, rem, true, steps, pts⟩
          else some ⟨path ++ [path.headD origin], rem, false, steps, pts⟩ := by
  unfold arbitraryInsertion
  rw [hget]
  show (match pts.find? (fun p => decide (p ≠ start)) with
    | none => none
    | some second =>
      match runLoop (aiStepF d) emitClosed stop
          (pts.filter (fun p => decide (p ∉ [start, second]))).length 0 [start, second]
          (pts.filter (fun p => decide (p ∉ [start, second]))) [] with
      | none => none
      | some (path, rem, k, steps) =>
        if stop k then some (RunResult.mk path rem true steps pts)
        else some (RunResult.mk (path ++ [path.headD origin]) rem false steps pts)) = _
  rw [hfind]

theorem nearestInsertion_eq_some (d : Dist) (stop : Nat → Bool) (s : Nat)
    (pts : List Point) (start second : Point) (hget : pts.get? s = some start)
    (hfind : pts.find? (fun p => decide (p ≠ start)) = some second) :
    nearestInsertion d stop s pts
      = match runLoop (niStep d) emitClosed stop
          (pts.filter (fun p => decide (p ∉ [start, second]))).length 0 [start, second]
          (pts.filter (fun p => decide (p ∉ [start, second]))) [] with
        | none => none
        | some (path, rem, k, steps) =>
          if stop k then some ⟨path, rem, true, steps, pts⟩
          else some ⟨path ++ [path.headD origin], rem, false, steps, pts⟩ := by
  unfold nearestInsertion
  rw [hget]
  show (match pts.find? (fun p => decide (p ≠ start)) with
    | none => none
    | some second =>
      match runLoop (niStep d) emitClosed stop
          (pts.filter (fun p => decide (p ∉ [start, second]))).length 0 [start, second]
          (pts.filter (fun p => decide (p ∉ [start, second]))) [] with
      | none => none
      | some (path, rem, k, steps) =>
        if stop k then some (RunResult.mk path rem true steps pts)
        else some (RunResult.mk (path ++ [path.headD origin]) rem false steps pts)) = _
  rw [hfind]

theorem closed_props (pts pa2 : List Point) (hne : pa2 ≠ []) (hperm : pa2.Perm pts) :
    ((pa2 ++ [pa2.headD origin]).dropLast).Perm pts ∧
    (pa2 ++ [pa2.headD origin]).head? = (pa2 ++ [pa2.headD origin]).getLast? ∧
    (pa2 ++ [pa2.headD origin]).length = pts.length + 1 := by
  refine ⟨?_, closed_tour_head_last pa2 hne, ?_⟩
  · rw [List.dropLast_concat]
    exact hperm
  · rw [List.length_append]
    simp [hperm.length_eq]

theorem nearestNeighbor_master (d : Dist) (stop : Nat → Bool) (s : Nat)
    (pts : List Point) (hnd : pts.Nodup) (hs : s < pts.length) :
    ∃ r k2, nearestNeighbor d stop s pts = some r ∧
      r.pointsAfter = pts ∧ r.stopped = stop k2 ∧
      r.remaining.length + k2 = pts.length - 1 ∧
      (∀ j, j < k2 → stop j = false) ∧
      (r.stopped = false → r.remaining = [] ∧ (r.finalTour.dropLast).Perm pts ∧
        r.finalTour.head? = r.finalTour.getLast? ∧
        r.finalTour.length = pts.length + 1) ∧
      (r.stopped = true → r.finalTour.Nodup ∧
        (r.finalTour ++ r.remaining).Perm pts) := by
  rcases hget : pts.get? s with _ | start
  · exact absurd (List.get?_eq_none.mp hget) (by omega)
  · have hstartmem : start ∈ pts := List.get?_mem hget
    have hfilter : pts.filter (fun p => decide (p ≠ start)) = pts.erase start :=
      filter_ne_eq_erase pts start hnd
    have hperm0 : (([start] : List Point)
        ++ pts.filter (fun p => decide (p ≠ start))).Perm pts := by
      rw [hfilter]
      simpa using (List.perm_cons_erase hstartmem).symm
    obtain ⟨pa2, re2, k2, steps2, hrun, hP2, _, hlenEq, hguard, hexit, more, hsteps⟩ :=
      runLoop_spec (nnStep d) emitOpen stop
        (fun pa re => pa.head? = some start ∧ (pa ++ re).Perm pts)
        (nnStep_ok d pts start)
        (pts.filter (fun p => decide (p ≠ start))).length 0 [start]
        (pts.filter (fun p => decide (p ≠ start))) []
        ⟨rfl, hperm0⟩ (le_refl _)
    have hlen0 : (pts.filter (fun p => decide (p ≠ start))).length = pts.length - 1 := by
      rw [hfilter, List.length_erase_of_mem hstartmem]
    have hpane2 : pa2 ≠ [] := by
      intro h
      rw [h] at hP2
      simp at hP2
    have hpermTail : (pa2 ++ re2).Perm pts := hP2.2
    cases hstop : stop k2 with
    | true =>
      refine ⟨⟨pa2, re2, true, steps2, pts⟩, k2, ?_, rfl, hstop.symm, ?_, ?_, ?_, ?_⟩
      · rw [nearestNeighbor_eq_some d stop s pts start hget, hrun]
        show (if stop k2 then some (RunResult.mk pa2 re2 true steps2 pts)
          else some (RunResult.mk (pa2 ++ [start]) re2 false steps2 pts)) = _
        rw [if_pos hstop]
      · simp only at hlenEq ⊢
        omega
      · intro j hj
        exact hguard j (by omega) hj
      · intro h
        simp at h
      · intro _
        exact ⟨(hpermTail.nodup_iff.mpr hnd).of_append_left, hpermTail⟩
    | false =>
      have hre2 : re2 = [] := by
        rcases hexit with h | h
        · exact h
        · rw [hstop] at h
          simp at h
      subst hre2
      have hpermPa : pa2.Perm pts := by
        simpa using hpermTail
      refine ⟨⟨pa2 ++ [start], [], false, steps2, pts⟩, k2, ?_, rfl, hstop.symm, ?_, ?_,
        ?_, ?_⟩
      · rw [nearestNeighbor_eq_some d stop s pts start hget, hrun]
        show (if stop k2 then some (RunResult.mk pa2 [] true steps2 pts)
          else some (RunResult.mk (pa2 ++ [start]) [] false steps2 pts)) = _
        rw [if_neg (by simp [hstop])]
      · simp only [List.length_nil] at hlenEq ⊢
        omega
      · intro j hj
        exact hguard j (by omega) hj
      · intro _
        refine ⟨rfl, ?_, ?_, ?_⟩
        · rw [List.dropLast_concat]
          exact hpermPa
        · rw [List.getLast?_concat, head?_append_left pa2 [start] hpane2, hP2.1]
        · rw [List.length_append]
          simp [hpermPa.length_eq]
      · intro h
        simp at h

theorem arbitraryInsertion_master (d : Dist) (stop : Nat → Bool) (s : Nat)
    (pts : List Point) (hnd : pts.Nodup) (hs : s < pts.length)
    (h2 : 2 ≤ pts.length) :
    ∃ r k2, arbitraryInsertion d stop s pts = some r ∧
      r.pointsAfter = pts ∧ r.stopped = stop k2 ∧
      r.remaining.length + k2 = pts.length - 2 ∧
      (∀ j, j < k2 → stop j = false) ∧
      (r.stopped = false → r.remaining = [] ∧ (r.finalTour.dropLast).Perm pts ∧
        r.finalTour.head? = r.finalTour.getLast? ∧
        r.finalTour.length = pts.length + 1) ∧
      (r.stopped = true → r.finalTour.Nodup ∧
        (r.finalTour ++ r.remaining).Perm pts) := by
  rcases hget : pts.get? s with _ | start
  · exact absurd (List.get?_eq_none.mp hget) (by omega)
  · have hstartmem : start ∈ pts := List.get?_mem hget
    rcases hfind : pts.find? (fun p => decide (p ≠ start)) with _ | second
    · exfalso
      have hall := List.find?_eq_none.mp hfind
      cases pts with
      | nil => simp at h2
      | cons a t =>
        cases t with
        | nil => simp at h2
        | cons b t2 =>
          have ha : a = start := by simpa using hall a (by simp)
          have hb : b = start := by simpa using hall b (by simp)
          have := (List.nodup_cons.mp hnd).1
          rw [ha, ← hb] at this
          exact this (by simp)
    · have hsecondmem : second ∈ pts := List.mem_of_find?_eq_some hfind
      have hsecondne : second ≠ start := by simpa using List.find?_some hfind
      have hpairnd : ([start, second] : List Point).Nodup := by
        simp [hsecondne.symm]
      have hperm0 : (([start, second] : List Point)
          ++ pts.filter (fun p => decide (p ∉ [start, second]))).Perm pts :=
        perm_sub_filter pts [start, second] hnd hpairnd
          (by
            intro x hx
            rcases List.mem_cons.mp hx with rfl | hx
            · exact hstartmem
            · rcases List.mem_cons.mp hx with rfl | hx
              · exact hsecondmem
              · simp at hx)
      obtain ⟨pa2, re2, k2, steps2, hrun, hP2, _, hlenEq, hguard, hexit, more, hsteps⟩ :=
        runLoop_spec (aiStepF d) emitClosed stop (Inv pts) (aiStepF_ok d pts)
          (pts.filter (fun p => decide (p ∉ [start, second]))).length 0 [start, second]
          (pts.filter (fun p => decide (p ∉ [start, second]))) []
          ⟨by simp, hperm0⟩ (le_refl _)
      have hlen0 : (pts.filter (fun p => decide (p ∉ [start, second]))).length
          = pts.length - 2 := by
        have := hperm0.length_eq
        simp only [List.length_append, List.length_cons, List.length_nil] at this
        omega
      have hpane2 : pa2 ≠ [] := hP2.1
      have hpermTail : (pa2 ++ re2).Perm pts := hP2.2
      rw [hlen0] at hlenEq
      cases hstop : stop k2 with
      | true =>
        refine ⟨⟨pa2, re2, true, steps2, pts⟩, k2, ?_, rfl, hstop.symm, ?_, ?_, ?_, ?_⟩
        · rw [arbitraryInsertion_eq_some d stop s pts start second hget hfind, hrun]
          show (if stop k2 then some (RunResult.mk pa2 re2 true steps2 pts)
            else some (RunResult.mk (pa2 ++ [pa2.headD origin]) re2 false steps2 pts)) = _
          rw [if_pos hstop]
        · simp only at hlenEq ⊢
          omega
        · intro j hj
          exact hguard j (by omega) hj
        · intro h
          simp at h
        · intro _
          exact ⟨(hpermTail.nodup_iff.mpr hnd).of_append_left, hpermTail⟩
      | false =>
        have hre2 : re2 = [] := by
          rcases hexit with h | h
          · exact h
          · rw [hstop] at h
            simp at h
        subst hre2
        have hpermPa : pa2.Perm pts := by simpa using hpermTail
        obtain ⟨hdl, hhl, hlenT⟩ := closed_props pts pa2 hpane2 hpermPa
        refine ⟨⟨pa2 ++ [pa2.headD origin], [], false, steps2, pts⟩, k2, ?_, rfl,
          hstop.symm, ?_, ?_, ?_, ?_⟩
        · rw [arbitraryInsertion_eq_some d stop s pts start second hget hfind, hrun]
          show (if stop k2 then some (RunResult.mk pa2 [] true steps2 pts)
            else some (RunResult.mk (pa2 ++ [pa2.headD origin]) [] false steps2 pts)) = _
          rw [if_neg (by simp [hstop])]
        · simp only [List.length_nil] at hlenEq ⊢
          omega
        · intro j hj
          exact hguard j (by omega) hj
        · intro _
          exact ⟨rfl, hdl, hhl, hlenT⟩
        · intro h
          simp at h

theorem nearestInsertion_master (d : Dist) (stop : Nat → Bool) (s : Nat)
    (pts : List Point) (hnd : pts.Nodup) (hs : s < pts.length)
    (h2 : 2 ≤ pts.length) :
    ∃ r k2, nearestInsertion d stop s pts = some r ∧
      r.pointsAfter = pts ∧ r.stopped = stop k2 ∧
      r.remaining.length + k2 = pts.length - 2 ∧
      (∀ j, j < k2 → stop j = false) ∧
      (r.stopped = false → r.remaining = [] ∧ (r.finalTour.dropLast).Perm pts ∧
        r.finalTour.head? = r.finalTour.getLast? ∧
        r.finalTour.length = pts.length + 1) ∧
      (r.stopped = true → r.finalTour.Nodup ∧
        (r.finalTour ++ r.remaining).Perm pts) := by
  rcases hget : pts.get? s with _ | start
  · exact absurd (List.get?_eq_none.mp hget) (by omega)
  · have hstartmem : start ∈ pts := List.get?_mem hget
    rcases hfind : pts.find? (fun p => decide (p ≠ start)) with _ | second
    · exfalso
      have hall := List.find?_eq_none.mp hfind
      cases pts with
      | nil => simp at h2
      | cons a t =>
        cases t with
        | nil => simp at h2
        | cons b t2 =>
          have ha : a = start := by simpa using hall a (by simp)
          have hb : b = start := by simpa using hall b (by simp)
          have := (List.nodup_cons.mp hnd).1
          rw [ha, ← hb] at this
          exact this (by simp)
    · have hsecondmem : second ∈ pts := List.mem_of_find?_eq_some hfind
      have hsecondne : second ≠ start := by simpa using List.find?_some hfind
      have hpairnd : ([start, second] : List Point).Nodup := by
        simp [hsecondne.symm]
      have hperm0 : (([start, second] : List Point)
          ++ pts.filter (fun p => decide (p ∉ [start, second]))).Perm pts :=
        perm_sub_filter pts [start, second] hnd hpairnd
          (by
            intro x hx
            rcases List.mem_cons.mp hx with rfl | hx
            · exact hstartmem
            · rcases List.mem_cons.mp hx with rfl | hx
              · exact hsecondmem
              · simp at hx)
      obtain ⟨pa2, re2, k2, steps2, hrun, hP2, _, hlenEq, hguard, hexit, more, hsteps⟩ :=
        runLoop_spec (niStep d) emitClosed stop (Inv pts) (niStep_ok d pts)
          (pts.filter (fun p => decide (p ∉ [start, second]))).length 0 [start, second]
          (pts.filter (fun p => decide (p ∉ [start, second]))) []
          ⟨by simp, hperm0⟩ (le_refl _)
      have hlen0 : (pts.filter (fun p => decide (p ∉ [start, second]))).length
          = pts.length - 2 := by
        have := hperm0.length_eq
        simp only [List.length_append, List.length_cons, List.length_nil] at this
        omega
      have hpane2 : pa2 ≠ [] := hP2.1
      have hpermTail : (pa2 ++ re2).Perm pts := hP2.2
      rw [hlen0] at hlenEq
      cases hstop : stop k2 with
      | true =>
        refine ⟨⟨pa2, re2, true, steps2, pts⟩, k2, ?_, rfl, hstop.symm, ?_, ?_, ?_, ?_⟩
        · rw [nearestInsertion_eq_some d stop s pts start second hget hfind, hrun]
          show (if stop k2 then some (RunResult.mk pa2 re2 true steps2 pts)
            else some (RunResult.mk (pa2 ++ [pa2.headD origin]) re2 false steps2 pts)) = _
          rw [if_pos hstop]
        · simp only at hlenEq ⊢
          omega
        · intro j hj
          exact hguard j (by omega) hj
        · intro h
          simp at h
        · intro _
          exact ⟨(hpermTail.nodup_iff.mpr hnd).of_append_left, hpermTail⟩
      | false =>
        have hre2 : re2 = [] := by
          rcases hexit with h | h
          · exact h
          · rw [hstop] at h
            simp at h
        subst hre2
        have hpermPa : pa2.Perm pts := by simpa using hpermTail
        obtain ⟨hdl, hhl, hlenT⟩ := closed_props pts pa2 hpane2 hpermPa
        refine ⟨⟨pa2 ++ [pa2.headD origin], [], false, steps2, pts⟩, k2, ?_, rfl,
          hstop.symm, ?_, ?_, ?_, ?_⟩
        · rw [nearestInsertion_eq_some d stop s pts start second hget hfind, hrun]
          show (if stop k2 then some (RunResult.mk pa2 [] true steps2 pts)
            else some (RunResult.mk (pa2 ++ [pa2.headD origin]) [] false steps2 pts)) = _
          rw [if_neg (by simp [hstop])]
        · simp only [List.length_nil] at hlenEq ⊢
          omega
        · intro j hj
          exact hguard j (by omega) hj
        · intro _
          exact ⟨rfl, hdl, hhl, hlenT⟩
        · intro h
          simp at h

theorem convexHull_master (d : Dist) (stop : Nat → Bool) (pts : List Point)
    (hnd : pts.Nodup) (h2 : 2 ≤ pts.length) :
    ∃ r k2, convexHull d stop pts = some r ∧
      r.pointsAfter = pts ∧ r.stopped = stop k2 ∧
      r.remaining.length + k2 + (hullOf pts).length = pts.length ∧
      (∀ j, j < k2 → stop j = false) ∧
      (r.stopped = false → r.remaining = [] ∧ (r.finalTour.dropLast).Perm pts ∧
        r.finalTour.head? = r.finalTour.getLast? ∧
        r.finalTour.length = pts.length + 1) ∧
      (r.stopped = true → r.finalTour.Nodup ∧
        (r.finalTour ++ r.remaining).Perm pts) := by
  have hhullnd := hullOf_nodup pts hnd
  have hhullne := hullOf_ne_nil pts hnd h2
  have hperm0 : (hullOf pts ++ pts.filter (fun p => decide (p ∉ hullOf pts))).Perm pts :=
    perm_sub_filter pts (hullOf pts) hnd hhullnd (hullOf_subset pts)
  have hred : convexHull d stop pts = (match runLoop (chStep d) emitClosed stop
      (pts.filter (fun p => decide (p ∉ hullOf pts))).length 0 (hullOf pts)
      (pts.filter (fun p => decide (p ∉ hullOf pts))) [emitClosed (hullOf pts)] with
    | none => none
    | some (path, rem, k, steps) =>
      if stop k then some (RunResult.mk path rem true steps pts)
      else some (RunResult.mk (path ++ [path.headD origin]) rem false steps pts)) := rfl
  obtain ⟨pa2, re2, k2, steps2, hrun, hP2, _, hlenEq, hguard, hexit, more, hsteps⟩ :=
    runLoop_spec (chStep d) emitClosed stop (Inv pts) (chStep_ok d pts hnd)
      (pts.filter (fun p => decide (p ∉ hullOf pts))).length 0 (hullOf pts)
      (pts.filter (fun p => decide (p ∉ hullOf pts))) [emitClosed (hullOf pts)]
      ⟨hhullne, hperm0⟩ (le_refl _)
  have hlen0 : (pts.filter (fun p => decide (p ∉ hullOf pts))).length
      + (hullOf pts).length = pts.length := by
    have := hperm0.length_eq
    simp only [List.length_append] at this
    omega
  have hpane2 : pa2 ≠ [] := hP2.1
  have hpermTail : (pa2 ++ re2).Perm pts := hP2.2
  cases hstop : stop k2 with
  | true =>
    refine ⟨⟨pa2, re2, true, steps2, pts⟩, k2, ?_, rfl, hstop.symm, ?_, ?_, ?_, ?_⟩
    · rw [hred, hrun]
      show (if stop k2 then some (RunResult.mk pa2 re2 true steps2 pts)
        else some (RunResult.mk (pa2 ++ [pa2.headD origin]) re2 false steps2 pts)) = _
      rw [if_pos hstop]
    · simp only at hlenEq ⊢
      omega
    · intro j hj
      exact hguard j (by omega) hj
    · intro h
      simp at h
    · intro _
      exact ⟨(hpermTail.nodup_iff.mpr hnd).of_append_left, hpermTail⟩
  | false =>
    have hre2 : re2 = [] := by
      rcases hexit with h | h
      · exact h
      · rw [hstop] at h
        simp at h
    subst hre2
    have hpermPa : pa2.Perm pts := by simpa using hpermTail
    obtain ⟨hdl, hhl, hlenT⟩ := closed_props pts pa2 hpane2 hpermPa
    refine ⟨⟨pa2 ++ [pa2.headD origin], [], false, steps2, pts⟩, k2, ?_, rfl,
      hstop.symm, ?_, ?_, ?_, ?_⟩
    · rw [hred, hrun]
      show (if stop k2 then some (RunResult.mk pa2 [] true steps2 pts)
        else some (RunResult.mk (pa2 ++ [pa2.headD origin]) [] false steps2 pts)) = _
      rw [if_neg (by simp [hstop])]
    · simp only [List.length_nil] at hlenEq ⊢
      omega
    · intro j hj
      exact hguard j (by omega) hj
    · intro _
      exact ⟨rfl, hdl, hhl, hlenT⟩
    · intro h
      simp at h

theorem furthestInsertion_eq_some (d : Dist) (stop : Nat → Bool) (p0 : Point)
    (rest : List Point) (f : Point) (remaining1 : List Point)
    (hsort : rest.mergeSort (fun a b => decide (d p0 b ≤ d p0 a)) = f :: remaining1) :
    furthestInsertion d stop (p0 :: rest)
      = match runLoop (fiStep d) emitOpen stop remaining1.length 0 [p0, f] remaining1
          [[p0, f]] with
        | none => none
        | some (path, rem, k, steps) =>
          if stop k then some ⟨path, rem, true, steps, p0 :: rest⟩
          else some ⟨path ++ [path.headD origin], rem, false, steps, p0 :: rest⟩ := by
  unfold furthestInsertion
  show (match rest.mergeSort (fun a b => decide (d p0 b ≤ d p0 a)) with
    | [] =>
      match runLoop (fiStep d) emitOpen stop 0 0 [p0] [] [[p0]] with
      | none => none
      | some (path, rem, k, steps) =>
        if stop k then some (RunResult.mk path rem true steps (p0 :: rest))
        else some (RunResult.mk (path ++ [path.headD origin]) rem false steps (p0 :: rest))
    | f :: remaining1 =>
      match runLoop (fiStep d) emitOpen stop remaining1.length 0 [p0, f] remaining1
          [[p0, f]] with
      | none => none
      | some (path, rem, k, steps) =>
        if stop k then some (RunResult.mk path rem true steps (p0 :: rest))
        else some (RunResult.mk (path ++ [path.headD origin]) rem false steps
          (p0 :: rest))) = _
  rw [hsort]

theorem furthestInsertion_master (d : Dist) (stop : Nat → Bool) (pts : List Point)
    (hnd : pts.Nodup) (hd : ∀ a b, a ≠ b → 0 < d a b) (h2 : 2 ≤ pts.length) :
    ∃ r k2, furthestInsertion d stop pts = some r ∧
      r.pointsAfter = pts ∧ r.stopped = stop k2 ∧
      r.remaining.length + k2 = pts.length - 2 ∧
      (∀ j, j < k2 → stop j = false) ∧
      (r.stopped = false → r.remaining = [] ∧ (r.finalTour.dropLast).Perm pts ∧
        r.finalTour.head? = r.finalTour.getLast? ∧
        r.finalTour.length = pts.length + 1) ∧
      (r.stopped = true → r.finalTour.Nodup ∧
        (r.finalTour ++ r.remaining).Perm pts) := by
  cases pts with
  | nil => simp at h2
  | cons p0 rest =>
    have hrestne : rest ≠ [] := by
      intro h
      rw [h] at h2
      simp at h2
    rcases hsort : rest.mergeSort (fun a b => decide (d p0 b ≤ d p0 a))
        with _ | ⟨f, remaining1⟩
    · exfalso
      have := (List.mergeSort_perm rest (fun a b => decide (d p0 b ≤ d p0 a))).length_eq
      rw [hsort] at this
      exact hrestne (List.eq_nil_of_length_eq_zero this.symm)
    · have hpermsort : (f :: remaining1).Perm rest := by
        rw [← hsort]
        exact List.mergeSort_perm rest _
      have hperm0 : (([p0, f] : List Point) ++ remaining1).Perm (p0 :: rest) := by
        have : (([p0, f] : List Point) ++ remaining1) = p0 :: (f :: remaining1) := rfl
        rw [this]
        exact hpermsort.cons p0
      obtain ⟨pa2, re2, k2, steps2, hrun, hP2, _, hlenEq, hguard, hexit, more, hsteps⟩ :=
        runLoop_spec (fiStep d) emitOpen stop (Inv (p0 :: rest))
          (fiStep_ok d (p0 :: rest) hnd hd)
          remaining1.length 0 [p0, f] remaining1 [[p0, f]]
          ⟨by simp, hperm0⟩ (le_refl _)
      have hlen0 : remaining1.length = (p0 :: rest).length - 2 := by
        have := hpermsort.length_eq
        simp only [List.length_cons] at this ⊢
        omega
      have hpane2 : pa2 ≠ [] := hP2.1
      have hpermTail : (pa2 ++ re2).Perm (p0 :: rest) := hP2.2
      rw [hlen0] at hlenEq
      cases hstop : stop k2 with
      | true =>
        refine ⟨⟨pa2, re2, true, steps2, p0 :: rest⟩, k2, ?_, rfl, hstop.symm, ?_, ?_,
          ?_, ?_⟩
        · rw [furthestInsertion_eq_some d stop p0 rest f remaining1 hsort, hrun]
          show (if stop k2 then some (RunResult.mk pa2 re2 true steps2 (p0 :: rest))
            else some (RunResult.mk (pa2 ++ [pa2.headD origin]) re2 false steps2
              (p0 :: rest))) = _
          rw [if_pos hstop]
        · simp only at hlenEq ⊢
          omega
        · intro j hj
          exact hguard j (by omega) hj
        · intro h
          simp at h
        · intro _
          exact ⟨(hpermTail.nodup_iff.mpr hnd).of_append_left, hpermTail⟩
      | false =>
        have hre2 : re2 = [] := by
          rcases hexit with h | h
          · exact h
          · rw [hstop] at h
            simp at h
        subst hre2
        have hpermPa : pa2.Perm (p0 :: rest) := by simpa using hpermTail
        obtain ⟨hdl, hhl, hlenT⟩ := closed_props (p0 :: rest) pa2 hpane2 hpermPa
        refine ⟨⟨pa2 ++ [pa2.headD origin], [], false, steps2, p0 :: rest⟩, k2, ?_, rfl,
          hstop.symm, ?_, ?_, ?_, ?_⟩
        · rw [furthestInsertion_eq_some d stop p0 rest f remaining1 hsort, hrun]
          show (if stop k2 then some (RunResult.mk pa2 [] true steps2 (p0 :: rest))
            else some (RunResult.mk (pa2 ++ [pa2.headD origin]) [] false steps2
              (p0 :: rest))) = _
          rw [if_neg (by simp [hstop])]
        · simp only [List.length_nil] at hlenEq ⊢
          omega
        · intro j hj
          exact hguard j (by omega) hj
        · intro _
          exact ⟨rfl, hdl, hhl, hlenT⟩
        · intro h
          simp at h


/-! ## Helper lemmas and concrete instances for the claim theorems -/

/-- Concrete points used by the witnesses and counterexamples below.
`ptA`, `ptB`, `ptC` are collinear on the x-axis, so `distX` agrees with the
code's Euclidean distance on them. -/
def ptA : Point := ⟨0, 0⟩

def ptB : Point := ⟨10, 0⟩

def ptC : Point := ⟨20, 0⟩

def ptD : Point := ⟨4, 0⟩

def ptE : Point := ⟨0, 3⟩

def ptF : Point := ⟨1, 1⟩

/-- The component's factorial is the mathematical factorial. -/
theorem factorial_eq_nat_factorial : ∀ n, factorial n = Nat.factorial n
  | 0 => rfl
  | 1 => rfl
  | n + 2 => by
    show (n + 2) * factorial (n + 1) = Nat.factorial (n + 2)
    rw [factorial_eq_nat_factorial (n + 1)]
    rfl

/-- The taxicab distance is positive definite. -/
theorem taxi_pos : ∀ a b : Point, a ≠ b → 0 < taxi a b := by
  intro a b hne
  unfold taxi
  rcases eq_or_ne a.x b.x with hx | hx
  · rcases eq_or_ne a.y b.y with hy | hy
    · exfalso
      apply hne
      cases a
      cases b
      simp only at hx hy
      simp [hx, hy]
    · have h1 : 0 < |a.y - b.y| := abs_pos.mpr (sub_ne_zero.mpr hy)
      have h0 : (0 : ℚ) ≤ |a.x - b.x| := abs_nonneg _
      linarith
  · have h1 : 0 < |a.x - b.x| := abs_pos.mpr (sub_ne_zero.mpr hx)
    have h0 : (0 : ℚ) ≤ |a.y - b.y| := abs_nonneg _
    linarith

/-- Splitting `List.range` at an element: everything before position `i`
in `range n` is exactly `range i`. -/
theorem range_split_pre (n i : Nat) (pre post : List Nat)
    (h : List.range n = pre ++ i :: post) : pre = List.range i ∧ i = pre.length := by
  have hlen : pre.length + (post.length + 1) = n := by
    have := congrArg List.length h
    simp [List.length_append] at this
    omega
  have hi : i = pre.length := by
    have h1 : (List.range n)[pre.length]? = some i := by
      rw [h, List.getElem?_append_right (le_refl pre.length)]
      simp
    rw [List.getElem?_range (by omega)] at h1
    injection h1 with h1
    exact h1.symm
  refine ⟨?_, hi⟩
  have htake := congrArg (List.take pre.length) h
  rw [List.take_range, List.take_left] at htake
  rw [← htake]
  have hmin : min pre.length n = i := by omega
  rw [hmin]

/-! ## Claim C3 -/

/-- C3 counterexample: the spec says `possibleTours = (N-1)!`, in particular
24 for N = 5, but the code computes `factorial(vertices)` = N!, which is
120 for N = 5. -/
theorem c3_counterexample : possiblePaths 5 ≠ Nat.factorial (5 - 1) := by decide

/-- C3 (amended): the possibleTours metric set on generation of N points is
N! (so 120 for N = 5 and 1 for N = 1), not (N-1)!. -/
theorem c3_theorem : (∀ n : Nat, possiblePaths n = Nat.factorial n) ∧
    possiblePaths 5 = 120 ∧ possiblePaths 1 = 1 :=
  ⟨fun n => factorial_eq_nat_factorial n, by decide, rfl⟩

/-! ## Claim C8 -/

/-- C8 counterexample: an unknown strategy name is not surfaced to the caller
as an error; the switch's default branch only logs "Algorithm not implemented"
to the console (and resets the running flag). -/
theorem c8_counterexample :
    startAlgorithm distX never 0 [] "simulated-annealing"
      = StartOutcome.logOnly "Algorithm not implemented" := rfl

/-- C8 (amended): for every strategy name outside the five known names no run
starts, and the only observable effect is the console log
"Algorithm not implemented" (no error value reaches the caller). -/
theorem c8_theorem (d : Dist) (stop : Nat → Bool) (seed : Nat)
    (points : List Point) (algorithm : String)
    (h : algorithm ∉ (["nearest-neighbor", "arbitrary-insertion",
      "nearest-insertion", "furthest-insertion", "convex-hull"] : List String)) :
    startAlgorithm d stop seed points algorithm
      = StartOutcome.logOnly "Algorithm not implemented" := by
  simp only [List.mem_cons, List.not_mem_nil, or_false, not_or] at h
  obtain ⟨h1, h2, h3, h4, h5⟩ := h
  unfold startAlgorithm
  split <;> simp_all

/-- C8 witness: the amended theorem applied to the name "simulated-annealing". -/
theorem c8_witness :
    ("simulated-annealing" ∉ (["nearest-neighbor", "arbitrary-insertion",
      "nearest-insertion", "furthest-insertion", "convex-hull"] : List String)) ∧
    startAlgorithm distX never 0 [] "simulated-annealing"
      = StartOutcome.logOnly "Algorithm not implemented" :=
  ⟨by decide, c8_theorem distX never 0 [] "simulated-annealing" (by decide)⟩


/-! ## Claim C5 -/

/-- C5 counterexample: nearestInsertion picks its start point with
`Math.random()` (modelled by the seed), so two never-stopped runs on the same
PointSet can produce different final tours: with seeds 0 and 1 on three
collinear points the tours start at different points. -/
theorem c5_counterexample :
    nearestInsertion distX never 0 [ptA, ptB, ptC]
      ≠ nearestInsertion distX never 1 [ptA, ptB, ptC] := by
  with_unfolding_all decide

/-- C5 (amended): convexHull is deterministic — it never reads the random
start-point draw, so two runs on the same PointSet with the same stop
schedule give identical results for every pair of draws; nearestInsertion by
contrast starts at a random point (see the counterexample). -/
theorem c5_theorem : ∀ (d : Dist) (stop : Nat → Bool) (pts : List Point) (s t : Nat),
    startAlgorithm d stop s pts "convex-hull" = startAlgorithm d stop t pts "convex-hull" :=
  fun _ _ _ _ _ => rfl

/-! ## Claim C2 -/

/-- C2 counterexample: on a valid PointSet of size 1, arbitraryInsertion and
nearestInsertion fault (their `find` of a second point misses, and the code
dereferences `undefined`), and convexHull spins forever (its insertion loop
finds no candidate and never shrinks the remaining set): all three are
modelled as `none`, so size 1 is not degenerate-but-valid for every strategy. -/
theorem c2_counterexample :
    arbitraryInsertion distX never 0 [ptA] = none ∧
    nearestInsertion distX never 0 [ptA] = none ∧
    convexHull distX never [ptA] = none :=
  ⟨by decide, by decide, by with_unfolding_all decide⟩

/-- C2 (amended): for every PointSet of at least 2 distinct points (with a
positive-definite distance and a valid start draw), all five strategies run
to completion without error, whatever the stop schedule. -/
theorem c2_theorem (d : Dist) (stop : Nat → Bool) (s : Nat) (pts : List Point)
    (hnd : pts.Nodup) (hs : s < pts.length) (h2 : 2 ≤ pts.length)
    (hd : ∀ a b, a ≠ b → 0 < d a b) :
    (∃ r, nearestNeighbor d stop s pts = some r) ∧
    (∃ r, arbitraryInsertion d stop s pts = some r) ∧
    (∃ r, nearestInsertion d stop s pts = some r) ∧
    (∃ r, furthestInsertion d stop pts = some r) ∧
    (∃ r, convexHull d stop pts = some r) := by
  obtain ⟨r1, k1, hr1, -⟩ := nearestNeighbor_master d stop s pts hnd hs
  obtain ⟨r2, k2, hr2, -⟩ := arbitraryInsertion_master d stop s pts hnd hs h2
  obtain ⟨r3, k3, hr3, -⟩ := nearestInsertion_master d stop s pts hnd hs h2
  obtain ⟨r4, k4, hr4, -⟩ := furthestInsertion_master d stop pts hnd hd h2
  obtain ⟨r5, k5, hr5, -⟩ := convexHull_master d stop pts hnd h2
  exact ⟨⟨r1, hr1⟩, ⟨r2, hr2⟩, ⟨r3, hr3⟩, ⟨r4, hr4⟩, ⟨r5, hr5⟩⟩

/-- C2 witness: the amended theorem at the two-point set, taxicab distance,
start draw 0 and the never-stopping schedule. -/
theorem c2_witness :
    (∃ r, nearestNeighbor taxi never 0 [ptA, ptD] = some r) ∧
    (∃ r, arbitraryInsertion taxi never 0 [ptA, ptD] = some r) ∧
    (∃ r, nearestInsertion taxi never 0 [ptA, ptD] = some r) ∧
    (∃ r, furthestInsertion taxi never [ptA, ptD] = some r) ∧
    (∃ r, convexHull taxi never [ptA, ptD] = some r) :=
  c2_theorem taxi never 0 [ptA, ptD] (by decide) (by decide) (by decide) taxi_pos

/-! ## Claim C9 -/

/-- Common tail of the five strategy wrappers: every result they build
carries the untouched input as `pointsAfter`. -/
theorem wrapper_points_unchanged (stop : Nat → Bool) (pts : List Point)
    (run : Option (List Point × List Point × Nat × List (List Point)))
    (close : List Point → List Point) (r : RunResult)
    (h : (match run with
      | none => none
      | some (path, rem, k, steps) =>
        if stop k then some (RunResult.mk path rem true steps pts)
        else some (RunResult.mk (close path) rem false steps pts)) = some r) :
    r.pointsAfter = pts := by
  rcases run with _ | ⟨path, rem, k, steps⟩
  · exact Option.noConfusion h
  · have h2 : (if stop k then some (RunResult.mk path rem true steps pts)
        else some (RunResult.mk (close path) rem false steps pts)) = some r := h
    by_cases hstop : stop k = true
    · rw [if_pos hstop] at h2
      cases h2
      rfl
    · rw [if_neg hstop] at h2
      cases h2
      rfl

/-- C9 counterexample: the JS variant of furthestInsertion begins with
`let path = [points.shift()]`, which removes the first element from the
shared points array: after a completed run the PointSet holds only the tail,
not the original sequence. -/
theorem c9_counterexample :
    (furthestInsertionJS taxi never [ptA, ptD, ptE]).map RunResult.pointsAfter
        = some [ptD, ptE] ∧
    ([ptD, ptE] : List Point) ≠ [ptA, ptD, ptE] :=
  ⟨by with_unfolding_all decide, by decide⟩

/-- C9 (amended): the five tsx strategies never mutate the PointSet: whenever
a run returns (completed or stopped), the points after the run are the points
before it, in the same order.  (The JS variant of furthestInsertion violates
this, see the counterexample.) -/
theorem c9_theorem (d : Dist) (stop : Nat → Bool) (s : Nat)
    (pts : List Point) (r : RunResult) :
    (nearestNeighbor d stop s pts = some r → r.pointsAfter = pts) ∧
    (arbitraryInsertion d stop s pts = some r → r.pointsAfter = pts) ∧
    (nearestInsertion d stop s pts = some r → r.pointsAfter = pts) ∧
    (furthestInsertion d stop pts = some r → r.pointsAfter = pts) ∧
    (convexHull d stop pts = some r → r.pointsAfter = pts) := by
  refine ⟨?_, ?_, ?_, ?_, ?_⟩ <;> intro h
  · rcases hget : pts.get? s with _ | start
    · have hnone : nearestNeighbor d stop s pts = none := by
        unfold nearestNeighbor
        rw [hget]
      rw [hnone] at h
      exact Option.noConfusion h
    · rw [nearestNeighbor_eq_some d stop s pts start hget] at h
      exact wrapper_points_unchanged stop pts _ _ r h
  · rcases hget : pts.get? s with _ | start
    · have hnone : arbitraryInsertion d stop s pts = none := by
        unfold arbitraryInsertion
        rw [hget]
      rw [hnone] at h
      exact Option.noConfusion h
    · rcases hfind : pts.find? (fun p => decide (p ≠ start)) with _ | second
      · have hnone : arbitraryInsertion d stop s pts = none := by
          unfold arbitraryInsertion
          rw [hget]
          show (match pts.find? (fun p => decide (p ≠ start)) with
            | none => none
            | some second =>
              match runLoop (aiStepF d) emitClosed stop
                  (pts.filter (fun p => decide (p ∉ [start, second]))).length 0
                  [start, second]
                  (pts.filter (fun p => decide (p ∉ [start, second]))) [] with
              | none => none
              | some (path, rem, k, steps) =>
                if stop k then some (RunResult.mk path rem true steps pts)
                else some (RunResult.mk (path ++ [path.headD origin]) rem false steps
                  pts)) = none
          rw [hfind]
        rw [hnone] at h
        exact Option.noConfusion h
      · rw [arbitraryInsertion_eq_some d stop s pts start second hget hfind] at h
        exact wrapper_points_unchanged stop pts _ _ r h
  · rcases hget : pts.get? s with _ | start
    · have hnone : nearestInsertion d stop s pts = none := by
        unfold nearestInsertion
        rw [hget]
      rw [hnone] at h
      exact Option.noConfusion h
    · rcases hfind : pts.find? (fun p => decide (p ≠ start)) with _ | second
      · have hnone : nearestInsertion d stop s pts = none := by
          unfold nearestInsertion
          rw [hget]
          show (match pts.find? (fun p => decide (p ≠ start)) with
            | none => none
            | some second =>
              match runLoop (niStep d) emitClosed stop
                  (pts.filter (fun p => decide (p ∉ [start, second]))).length 0
                  [start, second]
                  (pts.filter (fun p => decide (p ∉ [start, second]))) [] with
              | none => none
              | some (path, rem, k, steps) =>
                if stop k then some (RunResult.mk path rem true steps pts)
                else some (RunResult.mk (path ++ [path.headD origin]) rem false steps
                  pts)) = none
          rw [hfind]
        rw [hnone] at h
        exact Option.noConfusion h
      · rw [nearestInsertion_eq_some d stop s pts start second hget hfind] at h
        exact wrapper_points_unchanged stop pts _ _ r h
  · cases pts with
    | nil =>
      rw [show furthestInsertion d stop [] = none from rfl] at h
      exact Option.noConfusion h
    | cons p0 rest =>
      rcases hsort : rest.mergeSort (fun a b => decide (d p0 b ≤ d p0 a))
          with _ | ⟨f, remaining1⟩
      · have heq : furthestInsertion d stop (p0 :: rest)
            = match runLoop (fiStep d) emitOpen stop 0 0 [p0] [] [[p0]] with
              | none => none
              | some (path, rem, k, steps) =>
                if stop k then some (RunResult.mk path rem true steps (p0 :: rest))
                else some (RunResult.mk (path ++ [path.headD origin]) rem false steps
                  (p0 :: rest)) := by
          unfold furthestInsertion
          show (match rest.mergeSort (fun a b => decide (d p0 b ≤ d p0 a)) with
            | [] =>
              match runLoop (fiStep d) emitOpen stop 0 0 [p0] [] [[p0]] with
              | none => none
              | some (path, rem, k, steps) =>
                if stop k then some (RunResult.mk path rem true steps (p0 :: rest))
                else some (RunResult.mk (path ++ [path.headD origin]) rem false steps
                  (p0 :: rest))
            | f :: remaining1 =>
              match runLoop (fiStep d) emitOpen stop remaining1.length 0 [p0, f]
                  remaining1 [[p0, f]] with
              | none => none
              | some (path, rem, k, steps) =>
                if stop k then some (RunResult.mk path rem true steps (p0 :: rest))
                else some (RunResult.mk (path ++ [path.headD origin]) rem false steps
                  (p0 :: rest))) = _
          rw [hsort]
        rw [heq] at h
        exact wrapper_points_unchanged stop (p0 :: rest)
          (runLoop (fiStep d) emitOpen stop 0 0 [p0] [] [[p0]])
          (fun path => path ++ [path.headD origin]) r h
      · rw [furthestInsertion_eq_some d stop p0 rest f remaining1 hsort] at h
        exact wrapper_points_unchanged stop (p0 :: rest) _ _ r h
  · have heq : convexHull d stop pts = (match runLoop (chStep d) emitClosed stop
        (pts.filter (fun p => decide (p ∉ hullOf pts))).length 0 (hullOf pts)
        (pts.filter (fun p => decide (p ∉ hullOf pts))) [emitClosed (hullOf pts)] with
      | none => none
      | some (path, rem, k, steps) =>
        if stop k then some (RunResult.mk path rem true steps pts)
        else some (RunResult.mk (path ++ [path.headD origin]) rem false steps pts)) :=
      rfl
    rw [heq] at h
    exact wrapper_points_unchanged stop pts _ _ r h

/-- C9 witness: the amended theorem at a completed two-point
nearestNeighbor run. -/
theorem c9_witness :
    nearestNeighbor taxi never 0 [ptA, ptD]
        = some (RunResult.mk [ptA, ptD, ptA] [] false [[ptA, ptD]] [ptA, ptD]) ∧
    (RunResult.mk [ptA, ptD, ptA] [] false [[ptA, ptD]] [ptA, ptD]).pointsAfter
        = [ptA, ptD] :=
  ⟨by with_unfolding_all decide, (c9_theorem taxi never 0 [ptA, ptD]
      (RunResult.mk [ptA, ptD, ptA] [] false [[ptA, ptD]] [ptA, ptD])).1
      (by with_unfolding_all decide)⟩

/-! ## Claim C4 -/

/-- C4 counterexample: the code's position scan minimizes the OPEN path cost
of the tentative tour (no closing edge), not the closed tourCost with the
first point repeated at the end, and the two rules produce different tours:
on three collinear points the code builds [A, B, C, A] while the spec's
closed-cost rule builds [C, A, B, C].  (distX is exactly the code's
Euclidean distance on these equal-y points.) -/
theorem c4_counterexample :
    (arbitraryInsertion distX never 0 [ptA, ptB, ptC]).map RunResult.finalTour
        = some [ptA, ptB, ptC, ptA] ∧
    (arbitraryInsertionSpec distX never 0 [ptA, ptB, ptC]).map RunResult.finalTour
        = some [ptC, ptA, ptB, ptC] ∧
    aiStep distX [ptA, ptB] ptC ≠ aiStepSpec distX [ptA, ptB] ptC :=
  ⟨by with_unfolding_all decide, by with_unfolding_all decide,
    by with_unfolding_all decide⟩

/-- C4 (amended): at each arbitraryInsertion step the next point is the first
point of the remaining set in its current order, and it is inserted at the
position i, among all len(tour)+1 candidate gaps, that minimizes the OPEN
path cost of the tentative sequence (pathCost of the list with the point
inserted, no wrap-around edge), with ties broken by the smallest i found
first in the left-to-right scan. -/
theorem c4_theorem (d : Dist) (path : List Point) (p : Point) :
    ∃ c i, aiScan d path p = some (c, i) ∧ i ≤ path.length ∧
      c = pathCost d (insertAt i p path) ∧
      (∀ j, j ≤ path.length → c ≤ pathCost d (insertAt j p path)) ∧
      (∀ j, j < i → c < pathCost d (insertAt j p path)) ∧
      aiStep d path p = insertAt i p path ∧
      ∀ rest, aiStepF d path (p :: rest) = some (aiStep d path p, rest) := by
  obtain ⟨c, i, hscan0⟩ := scanMinBy_isSome (fun j => pathCost d (insertAt j p path))
    (List.range (path.length + 1)) (by simp [List.range_eq_nil])
  have hscan : aiScan d path p = some (c, i) := hscan0
  obtain ⟨hmem, hsc, hmin, pre, post, hsplit, hpre⟩ :=
    scanMinBy_some_spec (fun j => pathCost d (insertAt j p path))
      (List.range (path.length + 1)) c i hscan0
  obtain ⟨hpreeq, -⟩ := range_split_pre (path.length + 1) i pre post hsplit
  refine ⟨c, i, hscan, ?_, hsc.symm, ?_, ?_, ?_, fun rest => rfl⟩
  · have := List.mem_range.mp hmem
    omega
  · intro j hj
    exact hmin j (List.mem_range.mpr (by omega))
  · intro j hj
    exact hpre j (by rw [hpreeq]; exact List.mem_range.mpr hj)
  · unfold aiStep
    rw [hscan]

/-- C4 witness: the amended theorem at the collinear instance of the
counterexample (tour [A, B], next point C). -/
theorem c4_witness :
    ∃ c i, aiScan distX [ptA, ptB] ptC = some (c, i) ∧
      i ≤ ([ptA, ptB] : List Point).length ∧
      c = pathCost distX (insertAt i ptC [ptA, ptB]) ∧
      (∀ j, j ≤ ([ptA, ptB] : List Point).length →
        c ≤ pathCost distX (insertAt j ptC [ptA, ptB])) ∧
      (∀ j, j < i → c < pathCost distX (insertAt j ptC [ptA, ptB])) ∧
      aiStep distX [ptA, ptB] ptC = insertAt i ptC [ptA, ptB] ∧
      ∀ rest, aiStepF distX [ptA, ptB] (ptC :: rest)
        = some (aiStep distX [ptA, ptB] ptC, rest) :=
  c4_theorem distX [ptA, ptB] ptC

/-! ## Claims C1 and C6: shared consequences of the master lemmas -/

/-- A never-stopped run is closed: head equals last, the tour without its
closing point is a duplicate-free permutation of the input. -/
theorem closed_run_props (pts : List Point) (hnd : pts.Nodup) (r : RunResult)
    (k2 : Nat) (hstopped : r.stopped = never k2)
    (hun : r.stopped = false → r.remaining = [] ∧ r.finalTour.dropLast.Perm pts ∧
      r.finalTour.head? = r.finalTour.getLast? ∧
      r.finalTour.length = pts.length + 1) :
    r.finalTour.head? = r.finalTour.getLast? ∧ r.finalTour.dropLast.Perm pts ∧
      r.finalTour.dropLast.Nodup ∧ r.finalTour.length = pts.length + 1 := by
  obtain ⟨-, hperm, hhl, hlen⟩ := hun (hstopped.trans rfl)
  exact ⟨hhl, hperm, hperm.nodup_iff.mpr hnd, hlen⟩

/-- A run whose stop flag turns true before the loop could finish ends
stopped, with a nonempty remaining set and the partial-tour invariants. -/
theorem stopped_run_props (stop : Nat → Bool) (K needed : Nat) (pts : List Point)
    (r : RunResult) (k2 : Nat) (hK : stop K = true) (hKlt : K < needed)
    (hlen : r.remaining.length + k2 = needed)
    (hguard : ∀ j, j < k2 → stop j = false)
    (hun : r.stopped = false → r.remaining = [] ∧ r.finalTour.dropLast.Perm pts ∧
      r.finalTour.head? = r.finalTour.getLast? ∧
      r.finalTour.length = pts.length + 1)
    (hst : r.stopped = true → r.finalTour.Nodup ∧
      (r.finalTour ++ r.remaining).Perm pts) :
    r.stopped = true ∧ r.remaining ≠ [] ∧ r.finalTour.Nodup ∧
      (r.finalTour ++ r.remaining).Perm pts := by
  have hk2K : k2 ≤ K := by
    by_contra hlt
    push_neg at hlt
    have := hguard K hlt
    rw [hK] at this
    exact Bool.noConfusion this
  have hrne : r.remaining ≠ [] := by
    intro hnil
    rw [hnil] at hlen
    simp only [List.length_nil] at hlen
    omega
  have hstrue : r.stopped = true := by
    cases hb : r.stopped
    · obtain ⟨hnil, -⟩ := hun hb
      exact absurd hnil hrne
    · rfl
  obtain ⟨hndv, hperm⟩ := hst hstrue
  exact ⟨hstrue, hrne, hndv, hperm⟩

/-! ## Claim C1 -/

/-- C1: for every PointSet of at least 3 distinct points (positive-definite
distance, valid start draw), each of the five strategies on a never-stopped
run returns a tour whose first element equals its last, and which visits
every point of the PointSet exactly once apart from the closing repeat: the
tour without its last element is a duplicate-free permutation of the
PointSet, and the full tour has length N + 1. -/
theorem c1_theorem (d : Dist) (s : Nat) (pts : List Point)
    (hnd : pts.Nodup) (h3 : 3 ≤ pts.length) (hs : s < pts.length)
    (hd : ∀ a b, a ≠ b → 0 < d a b) :
    (∃ r, nearestNeighbor d never s pts = some r ∧
      r.finalTour.head? = r.finalTour.getLast? ∧ r.finalTour.dropLast.Perm pts ∧
      r.finalTour.dropLast.Nodup ∧ r.finalTour.length = pts.length + 1) ∧
    (∃ r, arbitraryInsertion d never s pts = some r ∧
      r.finalTour.head? = r.finalTour.getLast? ∧ r.finalTour.dropLast.Perm pts ∧
      r.finalTour.dropLast.Nodup ∧ r.finalTour.length = pts.length + 1) ∧
    (∃ r, nearestInsertion d never s pts = some r ∧
      r.finalTour.head? = r.finalTour.getLast? ∧ r.finalTour.dropLast.Perm pts ∧
      r.finalTour.dropLast.Nodup ∧ r.finalTour.length = pts.length + 1) ∧
    (∃ r, furthestInsertion d never pts = some r ∧
      r.finalTour.head? = r.finalTour.getLast? ∧ r.finalTour.dropLast.Perm pts ∧
      r.finalTour.dropLast.Nodup ∧ r.finalTour.length = pts.length + 1) ∧
    (∃ r, convexHull d never pts = some r ∧
      r.finalTour.head? = r.finalTour.getLast? ∧ r.finalTour.dropLast.Perm pts ∧
      r.finalTour.dropLast.Nodup ∧ r.finalTour.length = pts.length + 1) := by
  have h2 : 2 ≤ pts.length := by omega
  obtain ⟨r1, k1, hr1, -, hsto1, -, -, hun1, -⟩ :=
    nearestNeighbor_master d never s pts hnd hs
  obtain ⟨r2, k2, hr2, -, hsto2, -, -, hun2, -⟩ :=
    arbitraryInsertion_master d never s pts hnd hs h2
  obtain ⟨r3, k3, hr3, -, hsto3, -, -, hun3, -⟩ :=
    nearestInsertion_master d never s pts hnd hs h2
  obtain ⟨r4, k4, hr4, -, hsto4, -, -, hun4, -⟩ :=
    furthestInsertion_master d never pts hnd hd h2
  obtain ⟨r5, k5, hr5, -, hsto5, -, -, hun5, -⟩ :=
    convexHull_master d never pts hnd h2
  exact ⟨⟨r1, hr1, closed_run_props pts hnd r1 k1 hsto1 hun1⟩,
    ⟨r2, hr2, closed_run_props pts hnd r2 k2 hsto2 hun2⟩,
    ⟨r3, hr3, closed_run_props pts hnd r3 k3 hsto3 hun3⟩,
    ⟨r4, hr4, closed_run_props pts hnd r4 k4 hsto4 hun4⟩,
    ⟨r5, hr5, closed_run_props pts hnd r5 k5 hsto5 hun5⟩⟩

/-- C1 witness: the theorem at a three-point set with the taxicab distance. -/
theorem c1_witness :
    (∃ r, nearestNeighbor taxi never 0 [ptA, ptD, ptE] = some r ∧
      r.finalTour.head? = r.finalTour.getLast? ∧
      r.finalTour.dropLast.Perm [ptA, ptD, ptE] ∧
      r.finalTour.dropLast.Nodup ∧
      r.finalTour.length = ([ptA, ptD, ptE] : List Point).length + 1) ∧
    (∃ r, arbitraryInsertion taxi never 0 [ptA, ptD, ptE] = some r ∧
      r.finalTour.head? = r.finalTour.getLast? ∧
      r.finalTour.dropLast.Perm [ptA, ptD, ptE] ∧
      r.finalTour.dropLast.Nodup ∧
      r.finalTour.length = ([ptA, ptD, ptE] : List Point).length + 1) ∧
    (∃ r, nearestInsertion taxi never 0 [ptA, ptD, ptE] = some r ∧
      r.finalTour.head? = r.finalTour.getLast? ∧
      r.finalTour.dropLast.Perm [ptA, ptD, ptE] ∧
      r.finalTour.dropLast.Nodup ∧
      r.finalTour.length = ([ptA, ptD, ptE] : List Point).length + 1) ∧
    (∃ r, furthestInsertion taxi never [ptA, ptD, ptE] = some r ∧
      r.finalTour.head? = r.finalTour.getLast? ∧
      r.finalTour.dropLast.Perm [ptA, ptD, ptE] ∧
      r.finalTour.dropLast.Nodup ∧
      r.finalTour.length = ([ptA, ptD, ptE] : List Point).length + 1) ∧
    (∃ r, convexHull taxi never [ptA, ptD, ptE] = some r ∧
      r.finalTour.head? = r.finalTour.getLast? ∧
      r.finalTour.dropLast.Perm [ptA, ptD, ptE] ∧
      r.finalTour.dropLast.Nodup ∧
      r.finalTour.length = ([ptA, ptD, ptE] : List Point).length + 1) :=
  c1_theorem taxi 0 [ptA, ptD, ptE] (by decide) (by decide) (by decide) taxi_pos

/-! ## Claim C6 -/

/-- C6: if the stop flag turns true at a step index K smaller than the
number of main-loop iterations the strategy needs, the strategy observes it
at the top of an iteration and stops: the run ends with stopped = true, a
nonempty remaining set, a tour without the closing point appended (no point
appears twice in it), and tour plus remaining still a permutation of the
PointSet. -/
theorem c6_theorem (d : Dist) (stop : Nat → Bool) (s K : Nat) (pts : List Point)
    (hnd : pts.Nodup) (hs : s < pts.length) (hd : ∀ a b, a ≠ b → 0 < d a b)
    (hK : stop K = true) :
    (K < pts.length - 1 → ∃ r, nearestNeighbor d stop s pts = some r ∧
      r.stopped = true ∧ r.remaining ≠ [] ∧ r.finalTour.Nodup ∧
      (r.finalTour ++ r.remaining).Perm pts) ∧
    (2 ≤ pts.length → K < pts.length - 2 →
      ∃ r, arbitraryInsertion d stop s pts = some r ∧
      r.stopped = true ∧ r.remaining ≠ [] ∧ r.finalTour.Nodup ∧
      (r.finalTour ++ r.remaining).Perm pts) ∧
    (2 ≤ pts.length → K < pts.length - 2 →
      ∃ r, nearestInsertion d stop s pts = some r ∧
      r.stopped = true ∧ r.remaining ≠ [] ∧ r.finalTour.Nodup ∧
      (r.finalTour ++ r.remaining).Perm pts) ∧
    (2 ≤ pts.length → K < pts.length - 2 →
      ∃ r, furthestInsertion d stop pts = some r ∧
      r.stopped = true ∧ r.remaining ≠ [] ∧ r.finalTour.Nodup ∧
      (r.finalTour ++ r.remaining).Perm pts) ∧
    (2 ≤ pts.length → K < pts.length - (hullOf pts).length →
      ∃ r, convexHull d stop pts = some r ∧
      r.stopped = true ∧ r.remaining ≠ [] ∧ r.finalTour.Nodup ∧
      (r.finalTour ++ r.remaining).Perm pts) := by
  refine ⟨?_, ?_, ?_, ?_, ?_⟩
  · intro hKlt
    obtain ⟨r, k2, hr, -, hsto, hlen, hguard, hun, hst⟩ :=
      nearestNeighbor_master d stop s pts hnd hs
    exact ⟨r, hr, stopped_run_props stop K (pts.length - 1) pts r k2 hK hKlt
      hlen hguard hun hst⟩
  · intro h2 hKlt
    obtain ⟨r, k2, hr, -, hsto, hlen, hguard, hun, hst⟩ :=
      arbitraryInsertion_master d stop s pts hnd hs h2
    exact ⟨r, hr, stopped_run_props stop K (pts.length - 2) pts r k2 hK hKlt
      hlen hguard hun hst⟩
  · intro h2 hKlt
    obtain ⟨r, k2, hr, -, hsto, hlen, hguard, hun, hst⟩ :=
      nearestInsertion_master d stop s pts hnd hs h2
    exact ⟨r, hr, stopped_run_props stop K (pts.length - 2) pts r k2 hK hKlt
      hlen hguard hun hst⟩
  · intro h2 hKlt
    obtain ⟨r, k2, hr, -, hsto, hlen, hguard, hun, hst⟩ :=
      furthestInsertion_master d stop pts hnd hd h2
    exact ⟨r, hr, stopped_run_props stop K (pts.length - 2) pts r k2 hK hKlt
      hlen hguard hun hst⟩
  · intro h2 hKlt
    obtain ⟨r, k2, hr, -, hsto, hlen, hguard, hun, hst⟩ :=
      convexHull_master d stop pts hnd h2
    have hlen2 : r.remaining.length + k2 = pts.length - (hullOf pts).length := by
      omega
    exact ⟨r, hr, stopped_run_props stop K (pts.length - (hullOf pts).length) pts
      r k2 hK hKlt hlen2 hguard hun hst⟩

/-- C6 witness: the theorem at a four-point set whose hull has three
vertices, with the stop flag already set before the first iteration. -/
theorem c6_witness :
    (∃ r, nearestNeighbor taxi always 0 [ptA, ptD, ptE, ptF] = some r ∧
      r.stopped = true ∧ r.remaining ≠ [] ∧ r.finalTour.Nodup ∧
      (r.finalTour ++ r.remaining).Perm [ptA, ptD, ptE, ptF]) ∧
    (∃ r, arbitraryInsertion taxi always 0 [ptA, ptD, ptE, ptF] = some r ∧
      r.stopped = true ∧ r.remaining ≠ [] ∧ r.finalTour.Nodup ∧
      (r.finalTour ++ r.remaining).Perm [ptA, ptD, ptE, ptF]) ∧
    (∃ r, nearestInsertion taxi always 0 [ptA, ptD, ptE, ptF] = some r ∧
      r.stopped = true ∧ r.remaining ≠ [] ∧ r.finalTour.Nodup ∧
      (r.finalTour ++ r.remaining).Perm [ptA, ptD, ptE, ptF]) ∧
    (∃ r, furthestInsertion taxi always [ptA, ptD, ptE, ptF] = some r ∧
      r.stopped = true ∧ r.remaining ≠ [] ∧ r.finalTour.Nodup ∧
      (r.finalTour ++ r.remaining).Perm [ptA, ptD, ptE, ptF]) ∧
    (∃ r, convexHull taxi always [ptA, ptD, ptE, ptF] = some r ∧
      r.stopped = true ∧ r.remaining ≠ [] ∧ r.finalTour.Nodup ∧
      (r.finalTour ++ r.remaining).Perm [ptA, ptD, ptE, ptF]) := by
  have h := c6_theorem taxi always 0 0 [ptA, ptD, ptE, ptF] (by decide) (by decide)
    taxi_pos rfl
  exact ⟨h.1 (by decide), h.2.1 (by decide) (by decide),
    h.2.2.1 (by decide) (by decide), h.2.2.2.1 (by decide) (by decide),
    h.2.2.2.2 (by decide) (by with_unfolding_all decide)⟩

/-! ## Claim C10 -/

/-- nnStep always succeeds on a nonempty remaining set, growing the tour by
one and shrinking the remaining set by one. -/
theorem nnStep_lengths (d : Dist) (pa re : List Point) (hne : re ≠ []) :
    ∃ pa2 re2, nnStep d pa re = some (pa2, re2) ∧ pa2.length = pa.length + 1 ∧
      re2.length + 1 = re.length := by
  rcases hsort : re.mergeSort
      (fun a b => decide (d (pa.getLastD origin) a ≤ d (pa.getLastD origin) b))
      with _ | ⟨next, rest⟩
  · exfalso
    have := (List.mergeSort_perm re (fun a b =>
      decide (d (pa.getLastD origin) a ≤ d (pa.getLastD origin) b))).length_eq
    rw [hsort] at this
    exact hne (List.eq_nil_of_length_eq_zero this.symm)
  · have hpermsort : (next :: rest).Perm re := by
      rw [← hsort]
      exact List.mergeSort_perm re _
    refine ⟨pa ++ [next], rest, by simp only [nnStep, hsort], by simp, ?_⟩
    have := hpermsort.length_eq
    simp only [List.length_cons] at this
    omega

/-- Tour length grows by exactly one when the remaining set shrinks by one
and the invariant is preserved. -/
theorem step_tour_length (pts pa re pa2 re2 : List Point)
    (hInv : Inv pts pa re) (hInv2 : Inv pts pa2 re2)
    (hlen : re2.length + 1 = re.length) : pa2.length = pa.length + 1 := by
  have e1 := hInv.2.length_eq
  have e2 := hInv2.2.length_eq
  simp only [List.length_append] at e1 e2
  omega

/-- C10: each strategy loop body moves exactly one point from the remaining
set into the tour (the tour grows by one, the remaining set shrinks by one),
and a never-stopped run of any of the five strategies on at least 3 distinct
points terminates with the remaining set empty. -/
theorem c10_theorem (d : Dist) (s : Nat) (pts : List Point)
    (hnd : pts.Nodup) (h3 : 3 ≤ pts.length) (hs : s < pts.length)
    (hd : ∀ a b, a ≠ b → 0 < d a b) :
    (∀ pa re, re ≠ [] → ∃ pa2 re2, nnStep d pa re = some (pa2, re2) ∧
      pa2.length = pa.length + 1 ∧ re2.length + 1 = re.length) ∧
    (∀ pa (p : Point) rest, aiStepF d pa (p :: rest) = some (aiStep d pa p, rest) ∧
      (aiStep d pa p).length = pa.length + 1) ∧
    (∀ pa re, Inv pts pa re → re ≠ [] → ∃ pa2 re2, niStep d pa re = some (pa2, re2) ∧
      pa2.length = pa.length + 1 ∧ re2.length + 1 = re.length) ∧
    (∀ pa re, Inv pts pa re → re ≠ [] → ∃ pa2 re2, fiStep d pa re = some (pa2, re2) ∧
      pa2.length = pa.length + 1 ∧ re2.length + 1 = re.length) ∧
    (∀ pa re, Inv pts pa re → re ≠ [] → ∃ pa2 re2, chStep d pa re = some (pa2, re2) ∧
      pa2.length = pa.length + 1 ∧ re2.length + 1 = re.length) ∧
    (∃ r, nearestNeighbor d never s pts = some r ∧ r.remaining = [] ∧
      r.stopped = false) ∧
    (∃ r, arbitraryInsertion d never s pts = some r ∧ r.remaining = [] ∧
      r.stopped = false) ∧
    (∃ r, nearestInsertion d never s pts = some r ∧ r.remaining = [] ∧
      r.stopped = false) ∧
    (∃ r, furthestInsertion d never pts = some r ∧ r.remaining = [] ∧
      r.stopped = false) ∧
    (∃ r, convexHull d never pts = some r ∧ r.remaining = [] ∧
      r.stopped = false) := by
  have h2 : 2 ≤ pts.length := by omega
  refine ⟨fun pa re hne => nnStep_lengths d pa re hne, ?_, ?_, ?_, ?_, ?_, ?_, ?_, ?_, ?_⟩
  · intro pa p rest
    refine ⟨rfl, ?_⟩
    have := (aiStep_perm d pa p).length_eq
    simpa using this
  · intro pa re hInv hne
    obtain ⟨pa2, re2, hstep, hInv2, hlen⟩ := niStep_ok d pts pa re hInv hne
    exact ⟨pa2, re2, hstep, step_tour_length pts pa re pa2 re2 hInv hInv2 hlen, hlen⟩
  · intro pa re hInv hne
    obtain ⟨pa2, re2, hstep, hInv2, hlen⟩ := fiStep_ok d pts hnd hd pa re hInv hne
    exact ⟨pa2, re2, hstep, step_tour_length pts pa re pa2 re2 hInv hInv2 hlen, hlen⟩
  · intro pa re hInv hne
    obtain ⟨pa2, re2, hstep, hInv2, hlen⟩ := chStep_ok d pts hnd pa re hInv hne
    exact ⟨pa2, re2, hstep, step_tour_length pts pa re pa2 re2 hInv hInv2 hlen, hlen⟩
  · obtain ⟨r, k2, hr, -, hsto, -, -, hun, -⟩ :=
      nearestNeighbor_master d never s pts hnd hs
    have hf : r.stopped = false := hsto.trans rfl
    obtain ⟨hrem, -⟩ := hun hf
    exact ⟨r, hr, hrem, hf⟩
  · obtain ⟨r, k2, hr, -, hsto, -, -, hun, -⟩ :=
      arbitraryInsertion_master d never s pts hnd hs h2
    have hf : r.stopped = false := hsto.trans rfl
    obtain ⟨hrem, -⟩ := hun hf
    exact ⟨r, hr, hrem, hf⟩
  · obtain ⟨r, k2, hr, -, hsto, -, -, hun, -⟩ :=
      nearestInsertion_master d never s pts hnd hs h2
    have hf : r.stopped = false := hsto.trans rfl
    obtain ⟨hrem, -⟩ := hun hf
    exact ⟨r, hr, hrem, hf⟩
  · obtain ⟨r, k2, hr, -, hsto, -, -, hun, -⟩ :=
      furthestInsertion_master d never pts hnd hd h2
    have hf : r.stopped = false := hsto.trans rfl
    obtain ⟨hrem, -⟩ := hun hf
    exact ⟨r, hr, hrem, hf⟩
  · obtain ⟨r, k2, hr, -, hsto, -, -, hun, -⟩ :=
      convexHull_master d never pts hnd h2
    have hf : r.stopped = false := hsto.trans rfl
    obtain ⟨hrem, -⟩ := hun hf
    exact ⟨r, hr, hrem, hf⟩

/-- C10 witness: the theorem at a three-point set with the taxicab
distance. -/
theorem c10_witness :
    (∀ pa re, re ≠ [] → ∃ pa2 re2, nnStep taxi pa re = some (pa2, re2) ∧
      pa2.length = pa.length + 1 ∧ re2.length + 1 = re.length) ∧
    (∀ pa (p : Point) rest, aiStepF taxi pa (p :: rest)
        = some (aiStep taxi pa p, rest) ∧
      (aiStep taxi pa p).length = pa.length + 1) ∧
    (∀ pa re, Inv [ptA, ptD, ptE] pa re → re ≠ [] →
      ∃ pa2 re2, niStep taxi pa re = some (pa2, re2) ∧
      pa2.length = pa.length + 1 ∧ re2.length + 1 = re.length) ∧
    (∀ pa re, Inv [ptA, ptD, ptE] pa re → re ≠ [] →
      ∃ pa2 re2, fiStep taxi pa re = some (pa2, re2) ∧
      pa2.length = pa.length + 1 ∧ re2.length + 1 = re.length) ∧
    (∀ pa re, Inv [ptA, ptD, ptE] pa re → re ≠ [] →
      ∃ pa2 re2, chStep taxi pa re = some (pa2, re2) ∧
      pa2.length = pa.length + 1 ∧ re2.length + 1 = re.length) ∧
    (∃ r, nearestNeighbor taxi never 0 [ptA, ptD, ptE] = some r ∧
      r.remaining = [] ∧ r.stopped = false) ∧
    (∃ r, arbitraryInsertion taxi never 0 [ptA, ptD, ptE] = some r ∧
      r.remaining = [] ∧ r.stopped = false) ∧
    (∃ r, nearestInsertion taxi never 0 [ptA, ptD, ptE] = some r ∧
      r.remaining = [] ∧ r.stopped = false) ∧
    (∃ r, furthestInsertion taxi never [ptA, ptD, ptE] = some r ∧
      r.remaining = [] ∧ r.stopped = false) ∧
    (∃ r, convexHull taxi never [ptA, ptD, ptE] = some r ∧
      r.remaining = [] ∧ r.stopped = false) :=
  c10_theorem taxi 0 [ptA, ptD, ptE] (by decide) (by decide) (by decide) taxi_pos

/-! ## Claim C7 -/

/-- The head of the descending stable sort by distance to p0 is a furthest
point of the list. -/
theorem mergeSort_desc_head_max (d : Dist) (p0 : Point) (rest : List Point)
    (f : Point) (remaining1 : List Point)
    (hsort : rest.mergeSort (fun a b => decide (d p0 b ≤ d p0 a)) = f :: remaining1) :
    f ∈ rest ∧ ∀ y ∈ rest, d p0 y ≤ d p0 f := by
  have hperm : (f :: remaining1).Perm rest := by
    rw [← hsort]
    exact List.mergeSort_perm rest _
  have hsorted := @List.sorted_mergeSort Point (fun a b => decide (d p0 b ≤ d p0 a))
    (fun a b c hab hbc => by
      simp only [decide_eq_true_eq] at hab hbc ⊢
      exact le_trans hbc hab)
    (fun a b => by
      simp only [Bool.or_eq_true, decide_eq_true_eq]
      exact le_total (d p0 b) (d p0 a))
    rest
  rw [hsort] at hsorted
  have hmax : ∀ y ∈ remaining1, d p0 y ≤ d p0 f := by
    intro y hy
    have := (List.pairwise_cons.mp hsorted).1 y hy
    simpa using this
  refine ⟨hperm.subset (List.mem_cons_self f remaining1), ?_⟩
  intro y hy
  rcases List.mem_cons.mp (hperm.symm.subset hy) with rfl | hy2
  · exact le_refl _
  · exact hmax y hy2

/-- C7: furthestInsertion starts deterministically at the first PointSet
point p0 (no random draw), makes a point of maximal distance from p0 the
second tour point, and emits the two-point step before entering the main
loop; and each main-loop body selects a remaining point whose minimum
distance to the tour is maximal, then inserts it after the edge index
minimizing insertionCost, removing it from the remaining set. -/
theorem c7_theorem (d : Dist) (stop : Nat → Bool) (p0 : Point) (rest : List Point)
    (hrest : rest ≠ []) (hnd : (p0 :: rest).Nodup)
    (hd : ∀ a b, a ≠ b → 0 < d a b) :
    (∃ f remaining1 r, rest.mergeSort (fun a b => decide (d p0 b ≤ d p0 a))
        = f :: remaining1 ∧ f ∈ rest ∧ (∀ y ∈ rest, d p0 y ≤ d p0 f) ∧
      furthestInsertion d stop (p0 :: rest) = some r ∧
      ∃ more, r.steps = [p0, f] :: more) ∧
    (∀ pa re, pa ≠ [] → re ≠ [] → (∀ z ∈ re, ∀ t ∈ pa, z ≠ t) →
      ∃ sel, fiSelect d pa re = some sel ∧ sel ∈ re ∧
        (∀ z ∈ re, minDistToPath d pa z ≤ minDistToPath d pa sel) ∧
        ∃ c i, fiInsertScan d pa sel = some (c, i) ∧ i < pa.length ∧
          c = insertionCost d pa sel i ∧
          (∀ j, j < pa.length → c ≤ insertionCost d pa sel j) ∧
          fiStep d pa re = some (insertAt (i + 1) sel pa,
            re.filter (fun q => decide (q ≠ sel)))) := by
  constructor
  · rcases hsort : rest.mergeSort (fun a b => decide (d p0 b ≤ d p0 a))
        with _ | ⟨f, remaining1⟩
    · exfalso
      have := (List.mergeSort_perm rest (fun a b => decide (d p0 b ≤ d p0 a))).length_eq
      rw [hsort] at this
      exact hrest (List.eq_nil_of_length_eq_zero this.symm)
    · obtain ⟨hfmem, hfmax⟩ := mergeSort_desc_head_max d p0 rest f remaining1 hsort
      have hpermsort : (f :: remaining1).Perm rest := by
        rw [← hsort]
        exact List.mergeSort_perm rest _
      have hperm0 : (([p0, f] : List Point) ++ remaining1).Perm (p0 :: rest) := by
        have heq : (([p0, f] : List Point) ++ remaining1) = p0 :: (f :: remaining1) := rfl
        rw [heq]
        exact hpermsort.cons p0
      obtain ⟨pa2, re2, k2, steps2, hrun, -, -, -, -, -, more, hsteps⟩ :=
        runLoop_spec (fiStep d) emitOpen stop (Inv (p0 :: rest))
          (fiStep_ok d (p0 :: rest) hnd hd)
          remaining1.length 0 [p0, f] remaining1 [[p0, f]]
          ⟨by simp, hperm0⟩ (le_refl _)
      by_cases hstop : stop k2 = true
      · refine ⟨f, remaining1, RunResult.mk pa2 re2 true steps2 (p0 :: rest),
          rfl, hfmem, hfmax, ?_, more, ?_⟩
        · rw [furthestInsertion_eq_some d stop p0 rest f remaining1 hsort, hrun]
          show (if stop k2 then some (RunResult.mk pa2 re2 true steps2 (p0 :: rest))
            else some (RunResult.mk (pa2 ++ [pa2.headD origin]) re2 false steps2
              (p0 :: rest))) = _
          rw [if_pos hstop]
        · show steps2 = [p0, f] :: more
          rw [hsteps]
          rfl
      · refine ⟨f, remaining1,
          RunResult.mk (pa2 ++ [pa2.headD origin]) re2 false steps2 (p0 :: rest),
          rfl, hfmem, hfmax, ?_, more, ?_⟩
        · rw [furthestInsertion_eq_some d stop p0 rest f remaining1 hsort, hrun]
          show (if stop k2 then some (RunResult.mk pa2 re2 true steps2 (p0 :: rest))
            else some (RunResult.mk (pa2 ++ [pa2.headD origin]) re2 false steps2
              (p0 :: rest))) = _
          rw [if_neg (by simp [hstop])]
        · show steps2 = [p0, f] :: more
          rw [hsteps]
          rfl
  · intro pa re hpane hne hdisj
    have hpos : ∀ z ∈ re, 0 < minDistToPath d pa z := fun z hz =>
      minDistToPath_pos d pa z hpane (fun t ht => hd z t (hdisj z hz t ht))
    obtain ⟨sel, hsel0, hselmem, hselmax⟩ :=
      scanMaxPos_spec (fun p => minDistToPath d pa p) re hne hpos
    have hsel : fiSelect d pa re = some sel := hsel0
    obtain ⟨c, i, hins0⟩ := scanMinBy_isSome (fun i => insertionCost d pa sel i)
      (List.range pa.length) (by
        intro hnil
        rw [List.range_eq_nil] at hnil
        exact hpane (List.length_eq_zero.mp hnil))
    have hins : fiInsertScan d pa sel = some (c, i) := hins0
    obtain ⟨hmem, hsc, hmin, -⟩ := scanMinBy_some_spec (fun i => insertionCost d pa sel i)
      (List.range pa.length) c i hins0
    refine ⟨sel, hsel, hselmem, hselmax, c, i, hins, List.mem_range.mp hmem,
      hsc.symm, ?_, ?_⟩
    · intro j hj
      exact hmin j (List.mem_range.mpr hj)
    · simp only [fiStep, hsel, hins]

/-- C7 witness: the theorem at a three-point set with the taxicab distance. -/
theorem c7_witness :
    (∃ f remaining1 r,
      ([ptD, ptE] : List Point).mergeSort (fun a b => decide (taxi ptA b ≤ taxi ptA a))
        = f :: remaining1 ∧ f ∈ ([ptD, ptE] : List Point) ∧
      (∀ y ∈ ([ptD, ptE] : List Point), taxi ptA y ≤ taxi ptA f) ∧
      furthestInsertion taxi never (ptA :: [ptD, ptE]) = some r ∧
      ∃ more, r.steps = [ptA, f] :: more) ∧
    (∀ pa re, pa ≠ [] → re ≠ [] → (∀ z ∈ re, ∀ t ∈ pa, z ≠ t) →
      ∃ sel, fiSelect taxi pa re = some sel ∧ sel ∈ re ∧
        (∀ z ∈ re, minDistToPath taxi pa z ≤ minDistToPath taxi pa sel) ∧
        ∃ c i, fiInsertScan taxi pa sel = some (c, i) ∧ i < pa.length ∧
          c = insertionCost taxi pa sel i ∧
          (∀ j, j < pa.length → c ≤ insertionCost taxi pa sel j) ∧
          fiStep taxi pa re = some (insertAt (i + 1) sel pa,
            re.filter (fun q => decide (q ≠ sel)))) :=
  c7_theorem taxi never ptA [ptD, ptE] (by decide) (by decide) taxi_pos

end TSP
